import Mathlib

/-!
Verification of the Titanic-Passenger-Clustering pipeline.

Shallow embedding conventions:
* JavaScript numbers are modelled as exact rationals (`ℚ`).  Divisions by
  zero, which in JavaScript produce `Infinity`/`NaN`, yield `0` in `ℚ`; the
  theorems below carry hypotheses that keep every division that matters away
  from zero, and witnesses instantiate them on inputs where the JavaScript
  run stays finite.
* `Math.sqrt` is modelled as an explicit function parameter `sq : ℚ → ℚ`
  supplied to every definition that calls it (the real square root is not a
  rational function).  Theorems state the properties of `sq` they need
  (`sq 0 = 0`, nonnegativity on nonnegative inputs, positivity on positive
  inputs, `(sq v) ^ 2 = v` at the particular values where it matters), all
  of which hold for `Math.sqrt` on the corresponding real inputs.
* `Math.random` is modelled as a stream `g : ℕ → ℚ` of draws together with a
  counter that is threaded through every function that consumes randomness;
  claims quantify over all streams.  `Math.random` contractually produces
  values in `[0,1)`.
* Out-of-range array reads (`undefined` in JavaScript) are modelled by
  `List.getD _ _ 0` defaults; every theorem either assumes rectangular input
  so that no out-of-range read happens, or (for the non-rectangular inputs of
  claim C2) uses inputs whose result never observes such a read.
-/

namespace TitanicCluster

abbrev Vec := List ℚ
abbrev Mat := List Vec

/-- `map` carrying the element index, mirroring JavaScript's
`array.map((val, j) => ...)`; `i` is the index of the first element. -/
def jsMapIdxGo (f : ℕ → ℚ → ℚ) (i : ℕ) : List ℚ → List ℚ
  | [] => []
  | a :: t => f i a :: jsMapIdxGo f (i + 1) t

def jsMapIdx (f : ℕ → ℚ → ℚ) (l : List ℚ) : List ℚ := jsMapIdxGo f 0 l

/-- Source `euclideanDistance` (part_000 lines 289-296): the loop runs over
the indices of the first argument, accumulates squared differences and takes
the square root of the total. -/
def euclideanDistance (sq : ℚ → ℚ) (a b : Vec) : ℚ :=
  sq (((List.range a.length).map (fun i => (a.getD i 0 - b.getD i 0) ^ 2)).sum)

/-- Assignment scan of `performKMeans` (lines 179-197): `minDistance` starts
at `Infinity` (modelled by `Option.none`), strict `<` keeps the first
(lowest-index) centroid on ties. -/
def nearestLabel (sq : ℚ → ℚ) (centroids : Mat) (k : ℕ) (p : Vec) : ℕ :=
  ((List.range k).foldl
    (fun st j =>
      let dj := euclideanDistance sq p (centroids.getD j [])
      match st.1 with
      | none => (some dj, j)
      | some m => if dj < m then (some dj, j) else st)
    ((none : Option ℚ), 0)).2

def assignAll (sq : ℚ → ℚ) (data : Mat) (centroids : Mat) (k : ℕ) : List ℕ :=
  data.map (nearestLabel sq centroids k)

/-- One step of the centroid-accumulation loop of `performKMeans`
(lines 200-210): add row `row` with label `l` into the running sums and
counts. -/
def accumRow (grid : Mat) (counts : List ℕ) (row : Vec) (l : ℕ) (d : ℕ) :
    Mat × List ℕ :=
  let old := grid.getD l []
  (grid.set l ((List.range d).map (fun j => old.getD j 0 + row.getD j 0)),
   counts.set l (counts.getD l 0 + 1))

/-- The full accumulation pass over all rows (lines 200-210). -/
def accumAll (data : Mat) (labels : List ℕ) (k d : ℕ) : Mat × List ℕ :=
  (data.zip labels).foldl (fun st p => accumRow st.1 st.2 p.1 p.2 d)
    (List.replicate k (List.replicate d 0), List.replicate k 0)

/-- Centroid update of `performKMeans` (lines 199-219): a centroid with at
least one assigned point becomes sum/count, a centroid with none keeps its
previous row. -/
def updateCentroids (data : Mat) (labels : List ℕ) (centroids : Mat)
    (k d : ℕ) : Mat :=
  let ac := accumAll data labels k d
  (List.range k).map (fun i =>
    if 0 < ac.2.getD i 0 then
      (List.range d).map (fun j => (ac.1.getD i []).getD j 0 / (ac.2.getD i 0 : ℚ))
    else centroids.getD i [])

/-- The `while (changed && iterations < maxIterations)` loop of
`performKMeans` (lines 174-220).  Each iteration reassigns labels and then
unconditionally recomputes centroids; the loop stops when an assignment pass
changes no label or when the fuel (`maxIterations`) runs out. -/
def lloydLoop (sq : ℚ → ℚ) (data : Mat) (k d : ℕ) :
    ℕ → List ℕ → Mat → List ℕ × Mat
  | 0, labels, centroids => (labels, centroids)
  | fuel + 1, labels, centroids =>
    let newLabels := assignAll sq data centroids k
    let newCentroids := updateCentroids data newLabels centroids k d
    if newLabels = labels then (newLabels, newCentroids)
    else lloydLoop sq data k d fuel newLabels newCentroids

/-- Final inertia loop of `performKMeans` (lines 222-227). -/
def inertiaOf (sq : ℚ → ℚ) (data : Mat) (labels : List ℕ) (centroids : Mat) :
    ℚ :=
  ((List.range data.length).map (fun i =>
    euclideanDistance sq (data.getD i []) (centroids.getD (labels.getD i 0) []))).sum

/-- `Math.floor(r * n)` used to draw a uniform index (lines 239, 261). -/
def jsFloorIdx (r : ℚ) (n : ℕ) : ℕ := (Int.floor (r * n)).toNat

/-- Distance to the nearest already-chosen centroid (lines 245-254):
`minDistance` starts at `Infinity` and is folded with `Math.min`; the list of
centroids is never empty at a call site, so the `[]` case is unreachable. -/
def minDistToCentroids (sq : ℚ → ℚ) (p : Vec) : Mat → ℚ
  | [] => 0
  | c0 :: rest => rest.foldl (fun m cc => min m (euclideanDistance sq p cc))
      (euclideanDistance sq p c0)

/-- Cumulative-probability draw (lines 269-280): returns the first index `j`
with `r ≤ cumulativeProb` after adding `probs[j]`, and defaults to `0` when
the scan finishes without triggering. -/
def cumSelGo (r : ℚ) : List ℚ → ℚ → ℕ → ℕ
  | [], _, _ => 0
  | p :: rest, cum, j => if r ≤ cum + p then j else cumSelGo r rest (cum + p) (j + 1)

def cumulativeSelect (r : ℚ) (probs : List ℚ) : ℕ := cumSelGo r probs 0 0

/-- The `for (let i = 1; i < k; i++)` seeding loop of `initializeCentroids`
(lines 243-283), with the remaining number of centroids to pick as fuel. -/
def seedLoop (sq : ℚ → ℚ) (g : ℕ → ℚ) (data : Mat) (n : ℕ) :
    ℕ → Mat → ℕ → Mat × ℕ
  | 0, cents, c => (cents, c)
  | steps + 1, cents, c =>
    let dists := data.map (fun p => (minDistToCentroids sq p cents) ^ 2)
    let s := dists.sum
    if s = 0 then
      seedLoop sq g data n steps (cents ++ [data.getD (jsFloorIdx (g c) n) []]) (c + 1)
    else
      let probs := dists.map (fun dd => dd / s)
      let idx := cumulativeSelect (g c) probs
      seedLoop sq g data n steps (cents ++ [data.getD idx []]) (c + 1)

/-- Source `initializeCentroids` (lines 233-286): first centroid drawn
uniformly, the remaining `k - 1` via the k-means++ loop. -/
def initializeCentroids (sq : ℚ → ℚ) (g : ℕ → ℚ) (c : ℕ) (data : Mat)
    (k : ℕ) : Mat × ℕ :=
  let n := data.length
  seedLoop sq g data n (k - 1) [data.getD (jsFloorIdx (g c) n) []] (c + 1)

structure KMeansResult where
  labels : List ℕ
  centroids : Mat
  inertia : ℚ
deriving DecidableEq

/-- Source `performKMeans` (lines 150-230).  Labels start at all-zero
(line 170); the result also carries the advanced random counter. -/
def performKMeans (sq : ℚ → ℚ) (g : ℕ → ℚ) (c : ℕ) (data : Mat) (k : ℕ)
    (maxIterations : ℕ) : KMeansResult × ℕ :=
  if data.length = 0 ∨ (data.headD []).length = 0 then (⟨[], [], 0⟩, c)
  else
    let n := data.length
    let d := (data.headD []).length
    let seeded := initializeCentroids sq g c data k
    let lc := lloydLoop sq data k d maxIterations (List.replicate n 0) seeded.1
    (⟨lc.1, lc.2, inertiaOf sq data lc.1 lc.2⟩, seeded.2)

/-! PCA (part_000 lines 4-147). -/

/-- `d = data[0].length` (line 18). -/
def pcaDim (data : Mat) : ℕ := (data.headD []).length

/-- Column sum used by the mean accumulation loops (lines 21-29). -/
def colSumRange (m : Mat) (j : ℕ) : ℚ :=
  ((List.range m.length).map (fun i => (m.getD i []).getD j 0)).sum

/-- Per-feature means of `performPCA` (lines 19-29). -/
def pcaMeans (data : Mat) : Vec :=
  (List.range (pcaDim data)).map (fun j => colSumRange data j / data.length)

/-- Centering step (lines 31-34): every row is mapped with its index over the
row's own entries. -/
def centerData (data : Mat) : Mat :=
  let means := pcaMeans data
  data.map (fun row => jsMapIdx (fun j v => v - means.getD j 0) row)

/-- One covariance entry (lines 39-48): `Σ centered[r][i]·centered[r][j] / (n-1)`. -/
def covEntry (cd : Mat) (n i j : ℕ) : ℚ :=
  ((List.range n).map (fun r => (cd.getD r []).getD i 0 * (cd.getD r []).getD j 0)).sum
    / ((n : ℚ) - 1)

/-- The d×d covariance matrix (lines 36-48); the source fills the upper
triangle and mirrors it, which yields the same entries as computing each
position directly since `covEntry` is symmetric in `i`, `j`. -/
def pcaCov (data : Mat) : Mat :=
  let cd := centerData data
  let n := data.length
  let d := pcaDim data
  (List.range d).map (fun i => (List.range d).map (fun j => covEntry cd n i j))

/-- Matrix-by-vector multiply inside power iteration (lines 113-119). -/
def matVec (M : Mat) (n : ℕ) (v : Vec) : Vec :=
  (List.range n).map (fun i =>
    ((List.range n).map (fun j => (M.getD i []).getD j 0 * v.getD j 0)).sum)

/-- Normalization to unit length (lines 106-108 and 121-123). -/
def normalizeVec (sq : ℚ → ℚ) (v : Vec) : Vec :=
  let norm := sq ((v.map (fun x => x ^ 2)).sum)
  v.map (fun x => x / norm)

/-- The fixed-count power-iteration loop (lines 110-124). -/
def powerIter (sq : ℚ → ℚ) (M : Mat) (n : ℕ) : ℕ → Vec → Vec
  | 0, v => v
  | it + 1, v => powerIter sq M n it (normalizeVec sq (matVec M n v))

/-- Rayleigh quotient (lines 126-133). -/
def rayleigh (M : Mat) (n : ℕ) (v : Vec) : ℚ :=
  ((List.range n).map (fun i =>
    ((List.range n).map (fun j => v.getD i 0 * (M.getD i []).getD j 0 * v.getD j 0)).sum)).sum

/-- Deflation (lines 138-143). -/
def deflate (M : Mat) (n : ℕ) (lam : ℚ) (v : Vec) : Mat :=
  (List.range n).map (fun i =>
    (List.range n).map (fun j => (M.getD i []).getD j 0 - lam * v.getD i 0 * v.getD j 0))

structure EigenResult where
  eigenvalues : List ℚ
  eigenvectors : Mat
deriving DecidableEq

/-- Source `computeEigenvectors` (lines 90-147): for each of `numComponents`
components, start from a vector of `n` fresh random draws, normalize, run 30
power-iteration steps, take the Rayleigh quotient, record the pair and
deflate.  `n` is the working matrix's dimension, `c` the random counter. -/
def computeEigenvectors (sq : ℚ → ℚ) (g : ℕ → ℚ) :
    Mat → ℕ → ℕ → ℕ → EigenResult × ℕ
  | _, _, 0, c => (⟨[], []⟩, c)
  | M, n, m + 1, c =>
    let v0 := normalizeVec sq ((List.range n).map (fun t => g (c + t)))
    let v := powerIter sq M n 30 v0
    let lam := rayleigh M n v
    let rest := computeEigenvectors sq g (deflate M n lam v) n m (c + n)
    (⟨lam :: rest.1.eigenvalues, v :: rest.1.eigenvectors⟩, rest.2)

/-- The eigenpair-extraction phase of `performPCA` (line 51): the source
passes the full dimension `d`, not the requested component count, to
`computeEigenvectors`. -/
def pcaEigenPhase (sq : ℚ → ℚ) (g : ℕ → ℚ) (c : ℕ) (data : Mat) :
    EigenResult × ℕ :=
  computeEigenvectors sq g (pcaCov data) (pcaDim data) (pcaDim data) c

/-- The list of eigenvalues the extraction phase produces. -/
def pcaEigenvalues (sq : ℚ → ℚ) (g : ℕ → ℚ) (c : ℕ) (data : Mat) : List ℚ :=
  (pcaEigenPhase sq g c data).1.eigenvalues

/-- Insertion step of a stable descending insertion sort: the inserted
element (earlier in the original list) stops before the first element whose
key does not exceed its own, so elements with equal keys keep their original
relative order, as JavaScript's stable `sort((a,b) => b.val - a.val)`
does. -/
def insertDescBy (key : α → ℚ) (x : α) : List α → List α
  | [] => [x]
  | y :: t => if key y ≤ key x then x :: y :: t else y :: insertDescBy key x t

/-- Stable descending sort by key (line 54-56 of the source). -/
def sortDescBy (key : α → ℚ) : List α → List α
  | [] => []
  | x :: t => insertDescBy key x (sortDescBy key t)

structure PCAResult where
  projectedData : Mat
  explainedVariance : List ℚ
  components : Mat
deriving DecidableEq

/-- `const k = numComponents || d` (line 64): JavaScript `||` treats both a
missing argument and `0` as falsy. -/
def jsOrDefault (numComponents : Option ℕ) (d : ℕ) : ℕ :=
  match numComponents with
  | none => d
  | some m => if m = 0 then d else m

/-- Source `performPCA` (lines 4-87).  The eigenpairs are sorted descending
by eigenvalue, `totalVariance` sums all extracted eigenvalues, the ratio list
is built over all of them and then cut to the first `k`, and the data is
projected onto the first `k` sorted eigenvectors. -/
def performPCA (sq : ℚ → ℚ) (g : ℕ → ℚ) (c : ℕ) (data : Mat)
    (numComponents : Option ℕ) : PCAResult × ℕ :=
  if data.length = 0 ∨ (data.headD []).length = 0 then (⟨[], [], []⟩, c)
  else
    let d := pcaDim data
    let centeredData := centerData data
    let eig := pcaEigenPhase sq g c data
    let eigenPairs := sortDescBy (fun p => p.1)
      (eig.1.eigenvalues.zip (List.range eig.1.eigenvalues.length))
    let totalVariance := (eigenPairs.map (fun p => p.1)).sum
    let explainedVariance := eigenPairs.map (fun p => p.1 / totalVariance)
    let k := jsOrDefault numComponents d
    let components := (eigenPairs.take k).map (fun p => eig.1.eigenvectors.getD p.2 [])
    let projectedData := centeredData.map (fun row =>
      components.map (fun comp =>
        ((List.range d).map (fun i => row.getD i 0 * comp.getD i 0)).sum))
    (⟨projectedData, explainedVariance.take k, components⟩, eig.2)

/-! Silhouette score (part_000 lines 299-371). -/

/-- Mean intra-cluster distance `a` of point `i` (lines 314-325): mean over
the other points with the same label, `0` when there are none. -/
def silhouetteA (sq : ℚ → ℚ) (data : Mat) (labels : List ℕ) (i : ℕ) : ℚ :=
  let clusterI := labels.getD i 0
  let ds := ((List.range data.length).filter
      (fun j => j ≠ i ∧ labels.getD j 0 = clusterI)).map
    (fun j => euclideanDistance sq (data.getD i []) (data.getD j []))
  if 0 < ds.length then ds.sum / (ds.length : ℚ) else 0

/-- Nearest-other-cluster mean distance `b` of point `i` (lines 327-351):
minimum over the nonempty other clusters of the mean distance to that
cluster, `0` when no other cluster has points (the `Infinity` fallback). -/
def silhouetteB (sq : ℚ → ℚ) (data : Mat) (labels : List ℕ) (i : ℕ) : ℚ :=
  let clusterI := labels.getD i 0
  let avgs := (labels.dedup.filter (fun cl => cl ≠ clusterI)).filterMap
    (fun cl =>
      let ds := ((List.range data.length).filter
          (fun j => labels.getD j 0 = cl)).map
        (fun j => euclideanDistance sq (data.getD i []) (data.getD j []))
      if 0 < ds.length then some (ds.sum / (ds.length : ℚ)) else none)
  match avgs with
  | [] => 0
  | a :: rest => rest.foldl min a

/-- Per-point silhouette coefficient (lines 353-364). -/
def silhouetteCoef (sq : ℚ → ℚ) (data : Mat) (labels : List ℕ) (i : ℕ) : ℚ :=
  let a := silhouetteA sq data labels i
  let b := silhouetteB sq data labels i
  if a = 0 ∧ b = 0 then 0
  else if a = 0 then 1
  else if b = 0 then -1
  else (b - a) / max a b

/-- Source `calculateSilhouetteScore` (lines 299-371): `0` for fewer than 2
points or fewer than 2 distinct labels, otherwise the mean coefficient. -/
def calculateSilhouetteScore (sq : ℚ → ℚ) (data : Mat) (labels : List ℕ) :
    ℚ :=
  if data.length < 2 ∨ labels.dedup.length < 2 then 0
  else ((List.range data.length).map (silhouetteCoef sq data labels)).sum
    / (data.length : ℚ)

/-! `findOptimalK` (part_000 lines 374-430). -/

inductive KMethod where
  | elbow : KMethod
  | silhouette : KMethod
deriving DecidableEq

/-- The `for (let k = 2; k <= maxK; k++)` score sweep (lines 384-393); `r` is
the number of remaining iterations and the random counter is threaded through
the `performKMeans` calls (which use the default `maxIterations = 100`). -/
def sweepScores (sq : ℚ → ℚ) (g : ℕ → ℚ) (data : Mat) (method : KMethod) :
    ℕ → ℕ → ℕ → List ℚ × ℕ
  | _, 0, c => ([], c)
  | k, r + 1, c =>
    let km := performKMeans sq g c data k 100
    let score := match method with
      | .elbow => km.1.inertia
      | .silhouette => calculateSilhouetteScore sq data km.1.labels
    let rest := sweepScores sq g data method (k + 1) r km.2
    (score :: rest.1, rest.2)

/-- The maximum-seeking `forEach` loops (lines 403-411 and 416-424):
`maxValue` starts at `-Infinity` (modelled by `Option.none`), `maxIndex` at
`0`, and only a strictly greater value moves the index. -/
def jsArgmax (l : List ℚ) : ℕ :=
  (l.foldl
    (fun (st : Option ℚ × ℕ × ℕ) v =>
      match st.1 with
      | none => (some v, st.2.2, st.2.2 + 1)
      | some m => if m < v then (some v, st.2.2, st.2.2 + 1)
                  else (some m, st.2.1, st.2.2 + 1))
    (none, 0, 0)).2.1

/-- Source `findOptimalK` (lines 374-430).  For the elbow method the first
differences of consecutive scores and then their second differences are taken
(`scores.slice(0,-1).map((v,i) => v - scores[i+1])` twice), and the
recommended k is the maximizing index plus 2. -/
def findOptimalK (sq : ℚ → ℚ) (g : ℕ → ℚ) (c : ℕ) (data : Mat) (maxK : ℕ)
    (method : KMethod) : (List ℚ × ℕ) × ℕ :=
  let sw := sweepScores sq g data method 2 (maxK - 1) c
  let scores := sw.1
  let recommendedK :=
    match method with
    | .elbow =>
      let diffs := List.zipWith (fun a b => a - b) scores scores.tail
      let secondDiffs := List.zipWith (fun a b => a - b) diffs diffs.tail
      jsArgmax secondDiffs + 2
    | .silhouette => jsArgmax scores + 2
  ((scores, recommendedK), sw.2)

/-! `standardizeData` (dataUtils.ts lines 275-310). -/

/-- Source `standardizeData`: per-column mean and population standard
deviation (`Math.sqrt(Σ(val-mean)²/n)`, denominator `n`); a zero standard
deviation is replaced by `1`; each cell becomes `(val - mean)/std`. -/
def standardizeData (sq : ℚ → ℚ) (data : Mat) : Mat :=
  if data.length = 0 ∨ (data.headD []).length = 0 then []
  else
    let n := data.length
    let d := (data.headD []).length
    let means := (List.range d).map (fun j => colSumRange data j / (n : ℚ))
    let stds := (List.range d).map (fun j =>
      let s := sq ((((List.range n).map
        (fun i => ((data.getD i []).getD j 0 - means.getD j 0) ^ 2)).sum) / (n : ℚ))
      if s = 0 then 1 else s)
    data.map (fun row => jsMapIdx (fun j v => (v - means.getD j 0) / stds.getD j 0) row)

/-- Population mean of column `j` (specification-side quantity for C7). -/
def colMeanQ (m : Mat) (j : ℕ) : ℚ :=
  ((List.range m.length).map (fun i => (m.getD i []).getD j 0)).sum / (m.length : ℚ)

/-- Population variance of column `j` (specification-side quantity for C7). -/
def colVarQ (m : Mat) (j : ℕ) : ℚ :=
  ((List.range m.length).map
    (fun i => ((m.getD i []).getD j 0 - colMeanQ m j) ^ 2)).sum / (m.length : ℚ)

/-! Records and imputation (dataUtils.ts lines 113-211). -/

/-- A JavaScript record value: number, string, `null`, or a present key
holding `undefined`.  A missing key also reads as `undefined` (`readVal`). -/
inductive JsVal where
  | vnum : ℚ → JsVal
  | vstr : String → JsVal
  | vnull : JsVal
  | vundef : JsVal
deriving DecidableEq

def JsVal.isNum : JsVal → Bool
  | .vnum _ => true
  | _ => false

/-- A record is an association list whose order models JavaScript object key
insertion order. -/
abbrev JsRec := List (String × JsVal)

/-- Property read `r[key]`: the first binding's value, `undefined` when the
key is absent. -/
def readVal (r : JsRec) (key : String) : JsVal :=
  match r with
  | [] => .vundef
  | p :: t => if p.1 = key then p.2 else readVal t key

/-- Property write `r[key] = v`: replace the binding in place when present
(JavaScript objects hold one binding per key), append otherwise. -/
def writeVal (r : JsRec) (key : String) (v : JsVal) : JsRec :=
  match r with
  | [] => [(key, v)]
  | p :: t => if p.1 = key then (key, v) :: t else p :: writeVal t key v

/-- Object read `obj[key]` with a default, used for the precomputed median
and mode tables. -/
def lookupD (l : List (String × α)) (key : String) (dflt : α) : α :=
  match l with
  | [] => dflt
  | p :: t => if p.1 = key then p.2 else lookupD t key dflt

def excludeFeatures : List String :=
  ["PassengerId", "Name", "Ticket", "Cabin", "Survived"]

/-- Source `identifyFeatureTypes` (lines 114-141): only the first record is
inspected; its non-excluded keys are split by `typeof value === 'number'`, in
key order. -/
def identifyFeatureTypes (data : List JsRec) : List String × List String :=
  match data with
  | [] => ([], [])
  | sample :: _ =>
    let keep := sample.filter (fun p => ¬ excludeFeatures.contains p.1)
    ((keep.filter (fun p => p.2.isNum)).map (fun p => p.1),
     (keep.filter (fun p => ¬ p.2.isNum)).map (fun p => p.1))

/-- Ascending stable insertion (JavaScript `sort((a,b) => a - b)`). -/
def insertAsc (x : ℚ) : List ℚ → List ℚ
  | [] => [x]
  | y :: t => if x < y then x :: y :: t else y :: insertAsc x t

def sortAsc : List ℚ → List ℚ
  | [] => []
  | x :: t => insertAsc x (sortAsc t)

/-- Median of a numerical column (lines 152-167): the non-null, non-undefined
observed values are sorted; an even count averages the two middle values; an
empty column defaults to 0.  (The source casts the observed values to
`number[]`; the model reads the numeric ones, which coincides on columns
whose observed values are numbers.) -/
def medianOf (data : List JsRec) (f : String) : ℚ :=
  let nums := data.filterMap (fun r =>
    match readVal r f with
    | .vnum q => some q
    | _ => none)
  let sorted := sortAsc nums
  if sorted.length = 0 then 0
  else if sorted.length % 2 = 0 then
    (sorted.getD (sorted.length / 2 - 1) 0 + sorted.getD (sorted.length / 2) 0) / 2
  else sorted.getD (sorted.length / 2) 0

/-- The key under which a categorical observation is counted
(`valueCounts[value as string]`): strings count as themselves, numbers via
JavaScript's number-to-string coercion, modelled by the parameter
`numToStr`. -/
def jsKey (numToStr : ℚ → String) : JsVal → Option String
  | .vstr s => some s
  | .vnum q => some (numToStr q)
  | _ => none

/-- Increment the count of `key`, preserving first-seen order. -/
def bumpCount (counts : List (String × ℕ)) (key : String) : List (String × ℕ) :=
  match counts with
  | [] => [(key, 1)]
  | p :: t => if p.1 = key then (p.1, p.2 + 1) :: t else p :: bumpCount t key

/-- Occurrence counts of the non-null, non-undefined, non-empty observations
of column `f` (lines 170-179), in first-seen order.  (JavaScript object
iteration places integer-like string keys first; that reordering can only
affect which of two tied values `modeOf` picks, nothing the theorems below
state.) -/
def countsOf (numToStr : ℚ → String) (data : List JsRec) (f : String) :
    List (String × ℕ) :=
  data.foldl (fun counts r =>
    let v := readVal r f
    if v = .vnull ∨ v = .vundef ∨ v = .vstr "" then counts
    else match jsKey numToStr v with
      | some key => bumpCount counts key
      | none => counts) []

/-- Mode of a categorical column (lines 180-190): the first key whose count
strictly exceeds all earlier ones, defaulting to the empty string. -/
def modeOf (numToStr : ℚ → String) (data : List JsRec) (f : String) : String :=
  ((countsOf numToStr data f).foldl
    (fun (st : ℕ × String) p => if st.1 < p.2 then (p.2, p.1) else st)
    (0, "")).2

/-- Source `imputeMissingValues` (lines 144-211): medians and modes are
computed from the feature split of `identifyFeatureTypes`, then every record
gets its `null`/`undefined` numerical cells replaced by the median and its
`null`/`undefined`/`''` categorical cells replaced by the mode. -/
def imputeMissingValues (numToStr : ℚ → String) (data : List JsRec) :
    List JsRec :=
  let ft := identifyFeatureTypes data
  let medians := ft.1.map (fun f => (f, medianOf data f))
  let modes := ft.2.map (fun f => (f, modeOf numToStr data f))
  data.map (fun r =>
    let r1 := ft.1.foldl (fun acc f =>
      if readVal acc f = .vnull ∨ readVal acc f = .vundef then
        writeVal acc f (.vnum (lookupD medians f 0))
      else acc) r
    ft.2.foldl (fun acc f =>
      if readVal acc f = .vnull ∨ readVal acc f = .vundef ∨ readVal acc f = .vstr "" then
        writeVal acc f (.vstr (lookupD modes f ""))
      else acc) r1)

/-! Shared helper lemmas. -/

theorem sum_list_range (f : ℕ → ℚ) :
    ∀ n, ((List.range n).map f).sum = ∑ i ∈ Finset.range n, f i := by
  intro n
  induction n with
  | zero => simp
  | succ m ih => rw [List.range_succ, List.map_append, List.sum_append,
      Finset.sum_range_succ, ih]; simp

theorem getD_range_map {β : Type _} (f : ℕ → β) {j n : ℕ} (h : j < n) (d : β) :
    ((List.range n).map f).getD j d = f j := by
  rw [List.getD_eq_getElem?_getD, List.getElem?_map, List.getElem?_range h]
  rfl

theorem jsMapIdxGo_length (f : ℕ → ℚ → ℚ) :
    ∀ (l : List ℚ) (i : ℕ), (jsMapIdxGo f i l).length = l.length := by
  intro l
  induction l with
  | nil => intro i; rfl
  | cons a t ih => intro i; simp [jsMapIdxGo, ih]

theorem jsMapIdx_length (f : ℕ → ℚ → ℚ) (l : List ℚ) :
    (jsMapIdx f l).length = l.length := jsMapIdxGo_length f l 0

theorem jsMapIdxGo_getElem? (f : ℕ → ℚ → ℚ) :
    ∀ (l : List ℚ) (i j : ℕ),
      (jsMapIdxGo f i l)[j]? = (l[j]?).map (f (i + j)) := by
  intro l
  induction l with
  | nil => intro i j; simp [jsMapIdxGo]
  | cons a t ih =>
    intro i j
    cases j with
    | zero => simp [jsMapIdxGo]
    | succ m =>
      have harith : i + 1 + m = i + (m + 1) := by omega
      simp only [jsMapIdxGo, List.getElem?_cons_succ, ih (i + 1) m, harith]

theorem jsMapIdx_getD (f : ℕ → ℚ → ℚ) (l : List ℚ) {j : ℕ} (h : j < l.length)
    (d : ℚ) : (jsMapIdx f l).getD j d = f j (l.getD j 0) := by
  rw [List.getD_eq_getElem?_getD, jsMapIdx, jsMapIdxGo_getElem?,
    List.getD_eq_getElem?_getD, List.getElem?_eq_getElem h]
  simp

theorem insertDescBy_perm (key : α → ℚ) (x : α) :
    ∀ l : List α, List.Perm (insertDescBy key x l) (x :: l) := by
  intro l
  induction l with
  | nil => rfl
  | cons y t ih =>
    by_cases h : key y ≤ key x
    · simp [insertDescBy, h]
    · simp only [insertDescBy, if_neg h]
      exact (ih.cons y).trans (List.Perm.swap x y t)

theorem sortDescBy_perm (key : α → ℚ) :
    ∀ l : List α, List.Perm (sortDescBy key l) l := by
  intro l
  induction l with
  | nil => rfl
  | cons x t ih =>
    exact (insertDescBy_perm key x (sortDescBy key t)).trans (ih.cons x)

theorem sum_map_div (l : List ℚ) (s : ℚ) :
    (l.map (fun x => x / s)).sum = l.sum / s := by
  induction l with
  | nil => simp
  | cons a t ih => simp [ih, add_div]

/-! Concrete instances used by witnesses: a sample square-root function (it
agrees with the real square root on the inputs the witness computations feed
it: `0`, `1`, `1/4`, and all other arguments only have their sign and
zero-or-not status observed) and sample random streams. -/

def demoSqrt (q : ℚ) : ℚ := if q = 1 / 4 then 1 / 2 else |q|

def demoStream (_ : ℕ) : ℚ := 1 / 2

/-- The final inertia loop equals the sum, over all rows, of the
(non-squared) Euclidean distance from the row to the centroid of its
label. -/
theorem inertiaOf_eq_sum (sq : ℚ → ℚ) (data : Mat) (L : List ℕ) (C : Mat) :
    inertiaOf sq data L C =
      ∑ i ∈ Finset.range data.length,
        sq (∑ j ∈ Finset.range (data.getD i []).length,
          ((data.getD i []).getD j 0 - (C.getD (L.getD i 0) []).getD j 0) ^ 2) := by
  unfold inertiaOf euclideanDistance
  rw [sum_list_range]
  exact Finset.sum_congr rfl (fun i _ => by rw [sum_list_range])

/-- Claim C1: for every numeric matrix (with nonempty first row — an empty
first row makes `performKMeans` return the empty degenerate result and `k = 0`
makes the JavaScript original crash), every `k ≥ 1` and every
`maxIterations`, the `inertia` field returned by `performKMeans` equals the
sum, over all rows, of the non-squared Euclidean distance (square root of the
sum of squared coordinate differences) from that row to the centroid of its
assigned label in the returned result. -/
theorem C1_kmeans_inertia_is_nonsquared_sum (sq : ℚ → ℚ) (g : ℕ → ℚ) (c : ℕ)
    (data : Mat) (k maxIter : ℕ) (hd : (data.headD []).length ≠ 0)
    (_hk : 1 ≤ k) :
    ((performKMeans sq g c data k maxIter).1).inertia =
      ∑ i ∈ Finset.range data.length,
        sq (∑ j ∈ Finset.range (data.getD i []).length,
          ((data.getD i []).getD j 0 -
            ((((performKMeans sq g c data k maxIter).1).centroids).getD
              ((((performKMeans sq g c data k maxIter).1).labels).getD i 0) []).getD j 0) ^ 2) := by
  have hguard : ¬ (data.length = 0 ∨ (data.headD []).length = 0) := by
    rintro (h0 | h0)
    · exact hd (by rw [List.length_eq_zero] at h0; simp [h0])
    · exact hd h0
  simp only [performKMeans, if_neg hguard]
  exact inertiaOf_eq_sum sq data _ _

/-- Witness for C1 at a concrete input. -/
theorem C1_kmeans_inertia_is_nonsquared_sum_w :
    ((performKMeans demoSqrt demoStream 0 [[0], [1]] 1 3).1).inertia =
      ∑ i ∈ Finset.range ([[0], [1]] : Mat).length,
        demoSqrt (∑ j ∈ Finset.range (([[0], [1]] : Mat).getD i []).length,
          ((([[0], [1]] : Mat).getD i []).getD j 0 -
            ((((performKMeans demoSqrt demoStream 0 [[0], [1]] 1 3).1).centroids).getD
              ((((performKMeans demoSqrt demoStream 0 [[0], [1]] 1 3).1).labels).getD i 0) []).getD j 0) ^ 2) :=
  C1_kmeans_inertia_is_nonsquared_sum demoSqrt demoStream 0 [[0], [1]] 1 3
    (by decide) (by decide)

theorem sweepScores_length (sq : ℚ → ℚ) (g : ℕ → ℚ) (data : Mat)
    (method : KMethod) :
    ∀ (r k c : ℕ), ((sweepScores sq g data method k r c).1).length = r := by
  intro r
  induction r with
  | zero => intro k c; rfl
  | succ m ih => intro k c; simp only [sweepScores, List.length_cons, ih]

/-- Claim C10: for every input matrix, `findOptimalK` with the elbow method
and `maxK ≤ 3` returns `recommendedK = 2` regardless of the data: the score
sequence has at most 2 entries, its second-difference list is empty, and the
maximizing index defaults to `0`, reported as `0 + 2`. -/
theorem C10_elbow_small_maxK_recommends_two (sq : ℚ → ℚ) (g : ℕ → ℚ) (c : ℕ)
    (data : Mat) (maxK : ℕ) (h : maxK ≤ 3) :
    ((findOptimalK sq g c data maxK KMethod.elbow).1).2 = 2 := by
  simp only [findOptimalK]
  have hs : ((sweepScores sq g data KMethod.elbow 2 (maxK - 1) c).1).length ≤ 2 := by
    rw [sweepScores_length]; omega
  set scores := (sweepScores sq g data KMethod.elbow 2 (maxK - 1) c).1 with hsc
  have hdiffs : (List.zipWith (fun a b => a - b) scores scores.tail).length ≤ 1 := by
    rw [List.length_zipWith, List.length_tail]; omega
  have hsec : (List.zipWith (fun a b => a - b)
      (List.zipWith (fun a b => a - b) scores scores.tail)
      (List.zipWith (fun a b => a - b) scores scores.tail).tail).length = 0 := by
    rw [List.length_zipWith, List.length_tail]; omega
  rw [List.length_eq_zero] at hsec
  rw [hsec]
  rfl

/-- Witness for C10 at a concrete input. -/
theorem C10_elbow_small_maxK_recommends_two_w :
    ((findOptimalK demoSqrt demoStream 0 [[0], [1], [5]] 3 KMethod.elbow).1).2 = 2 :=
  C10_elbow_small_maxK_recommends_two demoSqrt demoStream 0 [[0], [1], [5]] 3
    (by decide)

/-- A vector fixed by one multiply-normalize step is fixed by any number of
power-iteration steps. -/
theorem powerIter_fixed (sq : ℚ → ℚ) (M : Mat) (n : ℕ) (v : Vec)
    (h : normalizeVec sq (matVec M n v) = v) :
    ∀ it, powerIter sq M n it v = v := by
  intro it
  induction it with
  | zero => rfl
  | succ m ih => rw [powerIter, h]; exact ih

/-- Covariance of the non-rectangular matrix `[[1], [2, 5]]`: the dimension
is read from the first row (`d = 1`), so only the first column enters. -/
theorem pcaCov_ragged : pcaCov [[1], [2, 5]] = [[1/2]] := by
  norm_num [pcaCov, centerData, pcaMeans, pcaDim, colSumRange, covEntry,
    jsMapIdx, jsMapIdxGo, List.range_succ]

/-- Eigen extraction on the 1×1 matrix `[[1/2]]` with the demo stream: the
start vector normalizes to `[1]`, which is a fixed point, and the Rayleigh
quotient is `1/2`.  (`demoSqrt` agrees with the real square root on every
argument of this trace.) -/
theorem eigenHalf :
    computeEigenvectors demoSqrt demoStream [[1/2]] 1 1 0 = (⟨[1/2], [[1]]⟩, 1) := by
  have hv0 : normalizeVec demoSqrt ((List.range 1).map (fun t => demoStream (0 + t))) = [1] := by
    norm_num [normalizeVec, demoStream, demoSqrt, List.range_succ]
  have hfix : normalizeVec demoSqrt (matVec [[1/2]] 1 [1]) = [1] := by
    norm_num [normalizeVec, matVec, demoSqrt, List.range_succ]
  have hp : powerIter demoSqrt [[1/2]] 1 30 [1] = [1] := powerIter_fixed _ _ _ _ hfix 30
  have hr : rayleigh [[1/2]] 1 [1] = 1/2 := by
    norm_num [rayleigh, List.range_succ]
  simp only [computeEigenvectors, hv0, hp, hr]

theorem pcaEigenPhase_ragged :
    pcaEigenPhase demoSqrt demoStream 0 [[1], [2, 5]] = (⟨[1/2], [[1]]⟩, 1) := by
  have hd : pcaDim [[1], [2, 5]] = 1 := rfl
  rw [pcaEigenPhase, hd, pcaCov_ragged]
  exact eigenHalf

/-- Claim C2 counterexample: on the non-rectangular matrix `[[1], [2, 5]]`
(rows of length 1 and 2), `performPCA` raises nothing and returns an ordinary
fully computed result — the PCA of the first column, the only column that the
first row announces.  (The values match the JavaScript run exactly: every
square root taken in this trace is exact.) -/
theorem C2_pca_no_error_on_ragged_cx :
    (performPCA demoSqrt demoStream 0 [[1], [2, 5]] none).1 =
      ⟨[[-(1/2)], [1/2]], [1], [[1]]⟩ := by
  simp only [performPCA, pcaEigenPhase_ragged]
  norm_num [sortDescBy, insertDescBy, jsOrDefault, centerData, pcaMeans, pcaDim,
    colSumRange, jsMapIdx, jsMapIdxGo, List.range_succ]

theorem lloydLoop_labels_length (sq : ℚ → ℚ) (data : Mat) (k d : ℕ) :
    ∀ (fuel : ℕ) (labels : List ℕ) (cents : Mat), labels.length = data.length →
      ((lloydLoop sq data k d fuel labels cents).1).length = data.length := by
  intro fuel
  induction fuel with
  | zero => intro labels cents h; exact h
  | succ m ih =>
    intro labels cents h
    simp only [lloydLoop]
    by_cases hc : assignAll sq data cents k = labels
    · rw [if_pos hc]
      simp [assignAll]
    · rw [if_neg hc]
      exact ih _ _ (by simp [assignAll])

/-- Claim C2 amended: `performPCA` and `performKMeans` perform no
rectangularity validation and have no error path at all — their result types
have no error case.  For every input whose first row is nonempty (the only
guarded condition; `k ≥ 1` keeps the JavaScript original from crashing on an
empty centroid array), including every non-rectangular matrix, they return an
ordinary result with one projected row, respectively one label, per input
row. -/
theorem C2_amended_no_validation (sq : ℚ → ℚ) (g : ℕ → ℚ) (c : ℕ) (data : Mat)
    (kOpt : Option ℕ) (k maxIter : ℕ) (hd : (data.headD []).length ≠ 0)
    (_hk : 1 ≤ k) :
    ((performPCA sq g c data kOpt).1).projectedData.length = data.length ∧
      ((performKMeans sq g c data k maxIter).1).labels.length = data.length := by
  have hguard : ¬ (data.length = 0 ∨ (data.headD []).length = 0) := by
    rintro (h0 | h0)
    · exact hd (by rw [List.length_eq_zero] at h0; simp [h0])
    · exact hd h0
  constructor
  · simp only [performPCA, if_neg hguard]
    simp [centerData]
  · simp only [performKMeans, if_neg hguard]
    exact lloydLoop_labels_length sq data k _ _ _ _ (List.length_replicate _ _)

/-- Witness for the amended C2 at the non-rectangular input. -/
theorem C2_amended_no_validation_w :
    ((performPCA demoSqrt demoStream 0 [[1], [2, 5]] none).1).projectedData.length
        = ([[1], [2, 5]] : Mat).length ∧
      ((performKMeans demoSqrt demoStream 0 [[1], [2, 5]] 1 3).1).labels.length
        = ([[1], [2, 5]] : Mat).length :=
  C2_amended_no_validation demoSqrt demoStream 0 [[1], [2, 5]] none 1 3
    (by decide) (by decide)

theorem computeEigenvectors_length (sq : ℚ → ℚ) (g : ℕ → ℚ) :
    ∀ (m : ℕ) (M : Mat) (n c : ℕ),
      ((computeEigenvectors sq g M n m c).1).eigenvalues.length = m := by
  intro m
  induction m with
  | zero => intro M n c; rfl
  | succ t ih => intro M n c; simp only [computeEigenvectors, List.length_cons, ih]

theorem sortDescBy_length (key : α → ℚ) (l : List α) :
    (sortDescBy key l).length = l.length := (sortDescBy_perm key l).length_eq

/-- Claim C3 counterexample: `performPCA` on the 2-column matrix
`[[0,0],[1,1]]` with requested component count `k = 1` runs its eigenpair
extraction phase (`pcaEigenPhase`, the call `computeEigenvectors(covariance,
d)` of source line 51, which never sees the request) for 2 eigenpairs, not
the requested 1. -/
theorem C3_extraction_ignores_request_cx :
    ((pcaEigenPhase demoSqrt demoStream 0 [[0, 0], [1, 1]]).1).eigenvalues.length = 2 ∧
      ((pcaEigenPhase demoSqrt demoStream 0 [[0, 0], [1, 1]]).1).eigenvalues.length ≠ 1 := by
  have h : ((pcaEigenPhase demoSqrt demoStream 0 [[0, 0], [1, 1]]).1).eigenvalues.length = 2 :=
    computeEigenvectors_length demoSqrt demoStream 2 _ 2 0
  exact ⟨h, by rw [h]; decide⟩

/-- Claim C3 amended: the eigenpair-extraction phase of `performPCA` always
performs power iteration with deflation for `d` components (the full column
dimension), regardless of the requested count; the requested `k ≥ 1` only
determines how many of the sorted eigenpairs are kept in the output
(`components` has length `min k d`). -/
theorem C3_amended_extraction_always_full (sq : ℚ → ℚ) (g : ℕ → ℚ) (c : ℕ)
    (data : Mat) (k : ℕ) (hk : 1 ≤ k) :
    ((pcaEigenPhase sq g c data).1).eigenvalues.length = pcaDim data ∧
      ((performPCA sq g c data (some k)).1).components.length
        = min k (pcaDim data) := by
  refine ⟨computeEigenvectors_length sq g _ _ _ _, ?_⟩
  by_cases hguard : data.length = 0 ∨ (data.headD []).length = 0
  · have hdim : pcaDim data = 0 := by
      rcases hguard with h0 | h0
      · rw [List.length_eq_zero] at h0; simp [pcaDim, h0]
      · exact h0
    rw [performPCA, if_pos hguard, hdim]
    simp
  · simp only [performPCA, if_neg hguard]
    have hk0 : jsOrDefault (some k) (pcaDim data) = k := by
      simp only [jsOrDefault, if_neg (by omega : ¬ k = 0)]
    simp only [List.length_map, List.length_take, hk0, sortDescBy_length,
      List.length_zip, List.length_range, min_self,
      computeEigenvectors_length sq g (pcaDim data) (pcaCov data) (pcaDim data) c,
      pcaEigenPhase]

/-- Witness for the amended C3 at a concrete input. -/
theorem C3_amended_extraction_always_full_w :
    ((pcaEigenPhase demoSqrt demoStream 0 [[0, 1], [1, 0]]).1).eigenvalues.length
        = pcaDim [[0, 1], [1, 0]] ∧
      ((performPCA demoSqrt demoStream 0 [[0, 1], [1, 0]] (some 1)).1).components.length
        = min 1 (pcaDim [[0, 1], [1, 0]]) :=
  C3_amended_extraction_always_full demoSqrt demoStream 0 [[0, 1], [1, 0]] 1
    (by decide)

theorem sum_nonneg_list : ∀ l : List ℚ, (∀ x ∈ l, 0 ≤ x) → 0 ≤ l.sum := by
  intro l
  induction l with
  | nil => intro _; simp
  | cons a t ih =>
    intro h
    simp only [List.sum_cons]
    have ha := h a (List.mem_cons_self a t)
    have ht := ih (fun x hx => h x (List.mem_cons_of_mem a hx))
    linarith

theorem sum_pos_of_mem_pos (x : ℚ) (hp : 0 < x) :
    ∀ l : List ℚ, (∀ y ∈ l, 0 ≤ y) → x ∈ l → 0 < l.sum := by
  intro l
  induction l with
  | nil => intro _ hx; cases hx
  | cons a t ih =>
    intro h hx
    simp only [List.sum_cons]
    rcases List.mem_cons.mp hx with rfl | hxt
    · have := sum_nonneg_list t (fun y hy => h y (List.mem_cons_of_mem _ hy))
      linarith
    · have ha := h a (List.mem_cons_self a t)
      have := ih (fun y hy => h y (List.mem_cons_of_mem _ hy)) hxt
      linarith

theorem foldl_min_le_init : ∀ (l : List ℚ) (a : ℚ), l.foldl min a ≤ a := by
  intro l
  induction l with
  | nil => intro a; simp
  | cons b t ih =>
    intro a
    simp only [List.foldl_cons]
    exact le_trans (ih (min a b)) (min_le_left a b)

theorem foldl_min_le_mem : ∀ (l : List ℚ) (a x : ℚ), x ∈ l → l.foldl min a ≤ x := by
  intro l
  induction l with
  | nil => intro a x hx; cases hx
  | cons b t ih =>
    intro a x hx
    rcases List.mem_cons.mp hx with rfl | hxt
    · simp only [List.foldl_cons]
      exact le_trans (foldl_min_le_init t (min a x)) (min_le_right a x)
    · exact ih (min a b) x hxt

theorem foldl_min_pos : ∀ (l : List ℚ) (a : ℚ), 0 < a → (∀ x ∈ l, 0 < x) →
    0 < l.foldl min a := by
  intro l
  induction l with
  | nil => intro a ha _; simpa using ha
  | cons b t ih =>
    intro a ha h
    simp only [List.foldl_cons]
    exact ih (min a b) (lt_min ha (h b (List.mem_cons_self b t)))
      (fun x hx => h x (List.mem_cons_of_mem _ hx))

theorem getD_map (f : α → β) (l : List α) {m : ℕ} (h : m < l.length)
    (dA : α) (dB : β) : (l.map f).getD m dB = f (l.getD m dA) := by
  rw [List.getD_eq_getElem?_getD, List.getElem?_map, List.getElem?_eq_getElem h,
    List.getD_eq_getElem?_getD, List.getElem?_eq_getElem h]
  rfl

theorem getD_mem (l : List α) {m : ℕ} (h : m < l.length) (dA : α) :
    l.getD m dA ∈ l := by
  rw [List.getD_eq_getElem?_getD, List.getElem?_eq_getElem h]
  exact List.getElem_mem h

theorem euclideanDistance_nonneg (sq : ℚ → ℚ) (hnn : ∀ q, 0 ≤ q → 0 ≤ sq q)
    (a b : Vec) : 0 ≤ euclideanDistance sq a b := by
  apply hnn
  rw [sum_list_range]
  exact Finset.sum_nonneg (fun i _ => sq_nonneg _)

theorem euclideanDistance_self (sq : ℚ → ℚ) (p : Vec) :
    euclideanDistance sq p p = sq 0 := by
  unfold euclideanDistance
  congr 1
  rw [sum_list_range]
  exact Finset.sum_eq_zero (fun i _ => by ring)

theorem euclideanDistance_pos (sq : ℚ → ℚ) (hpos : ∀ q, 0 < q → 0 < sq q)
    (p q : Vec) (hlen : p.length = q.length) (hne : p ≠ q) :
    0 < euclideanDistance sq p q := by
  apply hpos
  rw [sum_list_range]
  apply Finset.sum_pos'
  · intro i _; exact sq_nonneg _
  · by_contra hall
    push_neg at hall
    apply hne
    apply List.ext_getElem hlen
    intro i h1 h2
    have hi := hall i (Finset.mem_range.mpr h1)
    have hz : (p.getD i 0 - q.getD i 0) ^ 2 = 0 :=
      le_antisymm hi (sq_nonneg _)
    have hsub : p.getD i 0 = q.getD i 0 := by
      have := pow_eq_zero_iff (n := 2) (by norm_num) |>.mp hz
      linarith [sub_eq_zero.mp this]
    rwa [List.getD_eq_getElem?_getD, List.getElem?_eq_getElem h1,
      List.getD_eq_getElem?_getD, List.getElem?_eq_getElem h2] at hsub

theorem minDistToCentroids_eq_foldl (sq : ℚ → ℚ) (p c0 : Vec) (rest : Mat) :
    minDistToCentroids sq p (c0 :: rest) =
      (rest.map (euclideanDistance sq p)).foldl min (euclideanDistance sq p c0) := by
  rw [minDistToCentroids, List.foldl_map]

theorem le_foldl_min : ∀ (l : List ℚ) (a b : ℚ), b ≤ a → (∀ x ∈ l, b ≤ x) →
    b ≤ l.foldl min a := by
  intro l
  induction l with
  | nil => intro a b hba _; simpa using hba
  | cons c t ih =>
    intro a b hba h
    simp only [List.foldl_cons]
    exact ih (min a c) b (le_min hba (h c (List.mem_cons_self c t)))
      (fun x hx => h x (List.mem_cons_of_mem _ hx))

theorem minDistToCentroids_nonneg (sq : ℚ → ℚ) (hnn : ∀ q, 0 ≤ q → 0 ≤ sq q)
    (p : Vec) (cents : Mat) : 0 ≤ minDistToCentroids sq p cents := by
  cases cents with
  | nil => simp [minDistToCentroids]
  | cons c0 rest =>
    rw [minDistToCentroids_eq_foldl]
    apply le_foldl_min
    · exact euclideanDistance_nonneg sq hnn p c0
    · intro x hx
      obtain ⟨cc, _, rfl⟩ := List.mem_map.mp hx
      exact euclideanDistance_nonneg sq hnn p cc

theorem minDistToCentroids_eq_zero_of_mem (sq : ℚ → ℚ) (hz : sq 0 = 0)
    (hnn : ∀ q, 0 ≤ q → 0 ≤ sq q) (p : Vec) (cents : Mat) (hp : p ∈ cents) :
    minDistToCentroids sq p cents = 0 := by
  cases cents with
  | nil => cases hp
  | cons c0 rest =>
    refine le_antisymm ?_ (minDistToCentroids_nonneg sq hnn p _)
    rw [minDistToCentroids_eq_foldl]
    rcases List.mem_cons.mp hp with rfl | hprest
    · calc (rest.map (euclideanDistance sq p)).foldl min (euclideanDistance sq p p)
          ≤ euclideanDistance sq p p := foldl_min_le_init _ _
        _ = 0 := by rw [euclideanDistance_self, hz]
    · calc (rest.map (euclideanDistance sq p)).foldl min (euclideanDistance sq p c0)
          ≤ euclideanDistance sq p p :=
            foldl_min_le_mem _ _ _ (List.mem_map.mpr ⟨p, hprest, rfl⟩)
        _ = 0 := by rw [euclideanDistance_self, hz]

theorem minDistToCentroids_pos (sq : ℚ → ℚ) (hpos : ∀ q, 0 < q → 0 < sq q)
    (p : Vec) (cents : Mat) (d : ℕ) (hlenp : p.length = d)
    (hlens : ∀ cc ∈ cents, cc.length = d) (hne : p ∉ cents)
    (hcne : cents ≠ []) : 0 < minDistToCentroids sq p cents := by
  cases cents with
  | nil => exact absurd rfl hcne
  | cons c0 rest =>
    rw [minDistToCentroids_eq_foldl]
    apply foldl_min_pos
    · exact euclideanDistance_pos sq hpos p c0
        (by rw [hlenp, hlens c0 (List.mem_cons_self c0 rest)])
        (fun h => hne (h ▸ List.mem_cons_self c0 rest))
    · intro x hx
      obtain ⟨cc, hcc, rfl⟩ := List.mem_map.mp hx
      exact euclideanDistance_pos sq hpos p cc
        (by rw [hlenp, hlens cc (List.mem_cons_of_mem _ hcc)])
        (fun h => hne (h ▸ List.mem_cons_of_mem _ hcc))

theorem cumSelGo_pos (r : ℚ) : ∀ (probs : List ℚ) (cum : ℚ) (j : ℕ),
    cum < r → r ≤ cum + probs.sum →
    ∃ m, m < probs.length ∧ cumSelGo r probs cum j = j + m ∧
      0 < probs.getD m 0 := by
  intro probs
  induction probs with
  | nil =>
    intro cum j hlt hle
    simp only [List.sum_nil, add_zero] at hle
    exact absurd (lt_of_lt_of_le hlt hle) (lt_irrefl cum)
  | cons p rest ih =>
    intro cum j hlt hle
    by_cases hsel : r ≤ cum + p
    · refine ⟨0, by simp, ?_, ?_⟩
      · simp [cumSelGo, if_pos hsel]
      · simp only [List.getD_cons_zero]
        linarith
    · push_neg at hsel
      obtain ⟨m, hm1, hm2, hm3⟩ := ih (cum + p) (j + 1) hsel
        (by rw [List.sum_cons] at hle; linarith)
      refine ⟨m + 1, by simpa using hm1, ?_, by simpa using hm3⟩
      rw [cumSelGo, if_neg (by linarith), hm2]
      omega

theorem seedLoop_step_sel (sq : ℚ → ℚ) (g : ℕ → ℚ) (data : Mat) (n : ℕ)
    (steps : ℕ) (cents : Mat) (c : ℕ)
    (hs : ¬ (data.map (fun p => (minDistToCentroids sq p cents) ^ 2)).sum = 0) :
    seedLoop sq g data n (steps + 1) cents c =
      seedLoop sq g data n steps
        (cents ++ [data.getD (cumulativeSelect (g c)
          ((data.map (fun p => (minDistToCentroids sq p cents) ^ 2)).map
            (fun dd => dd /
              (data.map (fun p => (minDistToCentroids sq p cents) ^ 2)).sum))) []])
        (c + 1) := by
  rw [seedLoop, if_neg hs]

theorem seedLoop_nodup (sq : ℚ → ℚ) (g : ℕ → ℚ) (data : Mat) (d : ℕ)
    (hrect : ∀ r ∈ data, r.length = d) (hnodup : data.Nodup)
    (hz : sq 0 = 0) (hpos : ∀ q, 0 < q → 0 < sq q)
    (hg : ∀ m, 0 < g m ∧ g m < 1) :
    ∀ (steps : ℕ) (cents : Mat) (c : ℕ),
      cents ≠ [] → cents.Nodup → (∀ x ∈ cents, x ∈ data) →
      cents.length + steps ≤ data.length →
      ((seedLoop sq g data data.length steps cents c).1).Nodup := by
  have hnn : ∀ q, 0 ≤ q → 0 ≤ sq q := by
    intro q hq
    rcases eq_or_lt_of_le hq with h | h
    · rw [← h, hz]
    · exact le_of_lt (hpos q h)
  intro steps
  induction steps with
  | zero => intro cents c _ hnd _ _; exact hnd
  | succ m ih =>
    intro cents c hne hnd hsub hlen
    obtain ⟨p0, hp0data, hp0nc⟩ : ∃ p0 ∈ data, p0 ∉ cents := by
      by_contra hall
      push_neg at hall
      have h1 : data.toFinset ⊆ cents.toFinset := fun x hx =>
        List.mem_toFinset.mpr (hall x (List.mem_toFinset.mp hx))
      have h2 : data.length ≤ cents.toFinset.card := by
        rw [← List.toFinset_card_of_nodup hnodup]
        exact Finset.card_le_card h1
      have h3 : cents.toFinset.card ≤ cents.length := cents.toFinset_card_le
      omega
    have hdnn : ∀ x ∈ data.map (fun p => (minDistToCentroids sq p cents) ^ 2),
        0 ≤ x := by
      intro x hx
      obtain ⟨p, _, rfl⟩ := List.mem_map.mp hx
      exact sq_nonneg _
    have hspos :
        0 < (data.map (fun p => (minDistToCentroids sq p cents) ^ 2)).sum := by
      apply sum_pos_of_mem_pos ((minDistToCentroids sq p0 cents) ^ 2)
      · have := minDistToCentroids_pos sq hpos p0 cents d (hrect p0 hp0data)
          (fun cc hcc => hrect cc (hsub cc hcc)) hp0nc hne
        positivity
      · exact hdnn
      · exact List.mem_map.mpr ⟨p0, hp0data, rfl⟩
    have hsum1 :
        ((data.map (fun p => (minDistToCentroids sq p cents) ^ 2)).map
          (fun dd => dd /
            (data.map (fun p => (minDistToCentroids sq p cents) ^ 2)).sum)).sum = 1 := by
      rw [sum_map_div, div_self (ne_of_gt hspos)]
    obtain ⟨mIdx, hmlen, hmsel, hmpos⟩ :=
      cumSelGo_pos (g c)
        ((data.map (fun p => (minDistToCentroids sq p cents) ^ 2)).map
          (fun dd => dd /
            (data.map (fun p => (minDistToCentroids sq p cents) ^ 2)).sum))
        0 0 (hg c).1 (by rw [hsum1, zero_add]; linarith [(hg c).2])
    have hmn : mIdx < data.length := by
      simpa using hmlen
    have hprob :
        ((data.map (fun p => (minDistToCentroids sq p cents) ^ 2)).map
          (fun dd => dd /
            (data.map (fun p => (minDistToCentroids sq p cents) ^ 2)).sum)).getD mIdx 0 =
          (minDistToCentroids sq (data.getD mIdx []) cents) ^ 2 /
            (data.map (fun p => (minDistToCentroids sq p cents) ^ 2)).sum := by
      rw [getD_map _ _ (by simpa using hmn) 0 0,
        getD_map _ _ hmn [] 0]
    have hdpos : 0 < (minDistToCentroids sq (data.getD mIdx []) cents) ^ 2 := by
      rw [hprob] at hmpos
      rcases div_pos_iff.mp hmpos with ⟨h1, _⟩ | ⟨_, h2⟩
      · exact h1
      · exact absurd hspos (not_lt_of_lt h2)
    have hnotmem : data.getD mIdx [] ∉ cents := by
      intro hmem
      rw [minDistToCentroids_eq_zero_of_mem sq hz hnn _ _ hmem] at hdpos
      norm_num at hdpos
    have hidx : cumulativeSelect (g c)
        ((data.map (fun p => (minDistToCentroids sq p cents) ^ 2)).map
          (fun dd => dd /
            (data.map (fun p => (minDistToCentroids sq p cents) ^ 2)).sum)) = mIdx := by
      rw [cumulativeSelect, hmsel, zero_add]
    rw [seedLoop_step_sel sq g data data.length m cents c (ne_of_gt hspos), hidx]
    apply ih
    · simp
    · rw [List.nodup_append]
      exact ⟨hnd, List.nodup_singleton _, by
        intro x hx hx1
        rw [List.mem_singleton] at hx1
        exact hnotmem (hx1 ▸ hx)⟩
    · intro x hx
      rcases List.mem_append.mp hx with hx1 | hx2
      · exact hsub x hx1
      · rw [List.mem_singleton] at hx2
        exact hx2 ▸ getD_mem data hmn []
    · rw [List.length_append]
      simp only [List.length_singleton]
      omega

theorem seedLoop_length (sq : ℚ → ℚ) (g : ℕ → ℚ) (data : Mat) (n : ℕ) :
    ∀ (steps : ℕ) (cents : Mat) (c : ℕ),
      ((seedLoop sq g data n steps cents c).1).length = cents.length + steps := by
  intro steps
  induction steps with
  | zero => intro cents c; rfl
  | succ m ih =>
    intro cents c
    rw [seedLoop]
    by_cases hs : (data.map (fun p => (minDistToCentroids sq p cents) ^ 2)).sum = 0
    · rw [if_pos hs, ih]
      rw [List.length_append]
      simp only [List.length_singleton]
      omega
    · rw [if_neg hs, ih]
      rw [List.length_append]
      simp only [List.length_singleton]
      omega

theorem jsFloorIdx_lt {r : ℚ} {n : ℕ} (h0 : 0 ≤ r) (h1 : r < 1) (hn : 0 < n) :
    jsFloorIdx r n < n := by
  unfold jsFloorIdx
  have hnq : (0 : ℚ) < n := by exact_mod_cast hn
  have hmul : r * n < n := by nlinarith
  have hfl : Int.floor (r * (n : ℚ)) < (n : ℤ) := by
    rw [Int.floor_lt]
    exact_mod_cast hmul
  have hfl0 : (0 : ℤ) ≤ Int.floor (r * (n : ℚ)) :=
    Int.floor_nonneg.mpr (by positivity)
  omega

/-- Claim C4 amended: provided every pseudorandom draw is strictly inside
`(0,1)` — `Math.random` contractually returns values in `[0,1)`, and a draw
of exactly `0` breaks the property, see the counterexample — k-means++
seeding on a pool of at least `k ≥ 1` pairwise-distinct rectangular rows
never selects the same row twice: the `k` returned centroids are pairwise
distinct.  (With pairwise-distinct rows, some pairwise distance is
automatically nonzero once the pool has at least two rows.)  The hypotheses
on `sq` hold for the real square root: `sq 0 = 0` and positivity on positive
arguments. -/
theorem C4_amended_seeding_no_duplicates (sq : ℚ → ℚ) (g : ℕ → ℚ) (c : ℕ)
    (data : Mat) (k d : ℕ) (hrect : ∀ r ∈ data, r.length = d)
    (hnodup : data.Nodup) (hk1 : 1 ≤ k) (hkn : k ≤ data.length)
    (hg : ∀ m, 0 < g m ∧ g m < 1) (hz : sq 0 = 0)
    (hpos : ∀ q, 0 < q → 0 < sq q) :
    ((initializeCentroids sq g c data k).1).Nodup ∧
      ((initializeCentroids sq g c data k).1).length = k := by
  have hn1 : 0 < data.length := by omega
  have hF : jsFloorIdx (g c) data.length < data.length :=
    jsFloorIdx_lt (le_of_lt (hg c).1) (hg c).2 hn1
  constructor
  · rw [initializeCentroids]
    apply seedLoop_nodup sq g data d hrect hnodup hz hpos hg (k - 1) _ (c + 1)
    · simp
    · exact List.nodup_singleton _
    · intro x hx
      rw [List.mem_singleton] at hx
      exact hx ▸ getD_mem data hF []
    · simp only [List.length_singleton]
      omega
  · rw [initializeCentroids, seedLoop_length]
    simp only [List.length_singleton]
    omega

/-- Witness for the amended C4 at a concrete input. -/
theorem C4_amended_seeding_no_duplicates_w :
    ((initializeCentroids demoSqrt demoStream 0 [[0], [1]] 2).1).Nodup ∧
      ((initializeCentroids demoSqrt demoStream 0 [[0], [1]] 2).1).length = 2 :=
  C4_amended_seeding_no_duplicates demoSqrt demoStream 0 [[0], [1]] 2 1
    (by decide)
    (by decide) (by decide) (by decide)
    (fun m => by norm_num [demoStream])
    (by norm_num [demoSqrt])
    (fun q hq => by
      unfold demoSqrt
      by_cases h14 : q = 1 / 4
      · rw [if_pos h14]; norm_num
      · rw [if_neg h14]; exact abs_pos.mpr (ne_of_gt hq))

/-- A pseudorandom stream that always draws `0`, a value `Math.random` can
produce (its range is `[0,1)`). -/
def zeroStream (_ : ℕ) : ℚ := 0

/-- Claim C4 counterexample: on the pool `[[0], [1]]` of two distinct rows
with nonzero pairwise distance and `k = 2`, the draw sequence that always
returns `0` makes the seeding pick row 0 as the first centroid and then —
because the cumulative-probability scan accepts the very first index whose
cumulative probability is `≥ r` even when that index carries probability
`0` — pick row 0 again: the returned centroids are `[[0], [0]]`, the same row
twice. -/
theorem C4_seeding_duplicate_cx :
    (initializeCentroids demoSqrt zeroStream 0 [[0], [1]] 2).1 = [[0], [0]] ∧
      ¬ ([[0], [0]] : Mat).Nodup := by
  constructor
  · norm_num [initializeCentroids, seedLoop, minDistToCentroids,
      euclideanDistance, demoSqrt, jsFloorIdx, cumulativeSelect, cumSelGo,
      zeroStream, List.range_succ]
  · simp

/-- Claim C5: for every matrix whose eigen extraction yields a nonzero total
(the value `totalVariance` divides by; a zero total makes the JavaScript
original produce `NaN` ratios) and nonnegative extracted eigenvalues (the
covariance matrix is positive semi-definite, so the power-iteration Rayleigh
quotients are nonnegative in the real computation), the
`explainedVariance` ratios returned by `performPCA` sum to at most 1 for any
requested component count, and to exactly 1 when the requested count is the
full column dimension `d`.  Each ratio is a kept eigenvalue divided by the
sum of all extracted eigenvalues, which is what makes the full-dimension sum
exactly 1. -/
theorem C5_variance_ratios_sum (sq : ℚ → ℚ) (g : ℕ → ℚ) (c : ℕ) (data : Mat)
    (numComponents : Option ℕ)
    (hT : (pcaEigenvalues sq g c data).sum ≠ 0)
    (hnn : ∀ x ∈ pcaEigenvalues sq g c data, 0 ≤ x) :
    ((performPCA sq g c data numComponents).1).explainedVariance.sum ≤ 1 ∧
      (numComponents = some (pcaDim data) →
        ((performPCA sq g c data numComponents).1).explainedVariance.sum = 1) := by
  have hguard : ¬ (data.length = 0 ∨ (data.headD []).length = 0) := by
    intro hg0
    apply hT
    have hdim : pcaDim data = 0 := by
      rcases hg0 with h0 | h0
      · rw [List.length_eq_zero] at h0; simp [pcaDim, h0]
      · exact h0
    rw [pcaEigenvalues, pcaEigenPhase, hdim]
    rfl
  have hdim0 : pcaDim data ≠ 0 := by
    intro h0
    exact hguard (Or.inr h0)
  -- notation
  have hperm : List.Perm
      (sortDescBy (fun p => p.1)
        ((pcaEigenvalues sq g c data).zip
          (List.range (pcaEigenvalues sq g c data).length)))
      ((pcaEigenvalues sq g c data).zip
        (List.range (pcaEigenvalues sq g c data).length)) :=
    sortDescBy_perm _ _
  have hfst : (((pcaEigenvalues sq g c data).zip
      (List.range (pcaEigenvalues sq g c data).length)).map (fun p => p.1)) =
        pcaEigenvalues sq g c data := by
    exact List.map_fst_zip _ _ (by rw [List.length_range])
  have hpermMap : List.Perm
      ((sortDescBy (fun p => p.1)
        ((pcaEigenvalues sq g c data).zip
          (List.range (pcaEigenvalues sq g c data).length))).map (fun p => p.1))
      (pcaEigenvalues sq g c data) := by
    have h1 := hperm.map (fun p : ℚ × ℕ => p.1)
    rwa [hfst] at h1
  have hTsum : ((sortDescBy (fun p => p.1)
      ((pcaEigenvalues sq g c data).zip
        (List.range (pcaEigenvalues sq g c data).length))).map (fun p => p.1)).sum =
        (pcaEigenvalues sq g c data).sum := hpermMap.sum_eq
  have hTpos : 0 < (pcaEigenvalues sq g c data).sum :=
    lt_of_le_of_ne (sum_nonneg_list _ hnn) (Ne.symm hT)
  -- the full ratio list
  set sorted := sortDescBy (fun p => p.1)
    ((pcaEigenvalues sq g c data).zip
      (List.range (pcaEigenvalues sq g c data).length)) with hsorted
  have hratsum : (sorted.map (fun p => p.1 / (sorted.map (fun p => p.1)).sum)).sum = 1 := by
    have : sorted.map (fun p => p.1 / (sorted.map (fun p => p.1)).sum) =
        (sorted.map (fun p => p.1)).map
          (fun x => x / (sorted.map (fun p => p.1)).sum) := by
      rw [List.map_map]; rfl
    rw [this, sum_map_div, div_self]
    rw [hTsum]
    exact hT
  have hratnn : ∀ x ∈ sorted.map (fun p => p.1 / (sorted.map (fun p => p.1)).sum),
      0 ≤ x := by
    intro x hx
    obtain ⟨p, hp, rfl⟩ := List.mem_map.mp hx
    have hpmem : p ∈ (pcaEigenvalues sq g c data).zip
        (List.range (pcaEigenvalues sq g c data).length) := hperm.mem_iff.mp hp
    have hp1 : p.1 ∈ pcaEigenvalues sq g c data := (List.mem_zip hpmem).1
    apply div_nonneg (hnn _ hp1)
    rw [hTsum]
    exact le_of_lt hTpos
  have hlen : sorted.length = pcaDim data := by
    rw [hsorted, sortDescBy_length, List.length_zip, List.length_range, min_self,
      pcaEigenvalues, pcaEigenPhase, computeEigenvectors_length]
  have hmain : ∀ kk : ℕ,
      ((sorted.map (fun p => p.1 / (sorted.map (fun p => p.1)).sum)).take kk).sum ≤ 1 := by
    intro kk
    have hsplit := List.take_append_drop kk
      (sorted.map (fun p => p.1 / (sorted.map (fun p => p.1)).sum))
    have : ((sorted.map (fun p => p.1 / (sorted.map (fun p => p.1)).sum)).take kk).sum
        + ((sorted.map (fun p => p.1 / (sorted.map (fun p => p.1)).sum)).drop kk).sum = 1 := by
      rw [← List.sum_append, hsplit, hratsum]
    have hdropnn : 0 ≤ ((sorted.map
        (fun p => p.1 / (sorted.map (fun p => p.1)).sum)).drop kk).sum :=
      sum_nonneg_list _ (fun x hx => hratnn x (List.drop_subset _ _ hx))
    linarith
  constructor
  · simp only [performPCA, if_neg hguard]
    exact hmain _
  · intro hk
    simp only [performPCA, if_neg hguard]
    subst hk
    have hkk : jsOrDefault (some (pcaDim data)) (pcaDim data) = pcaDim data := by
      simp only [jsOrDefault, if_neg hdim0]
    rw [hkk, List.take_of_length_le
      (by rw [List.length_map]
          show sorted.length ≤ pcaDim data
          rw [hlen])]
    exact hratsum

theorem pcaCov_demo : pcaCov [[0], [1]] = [[1/2]] := by
  norm_num [pcaCov, centerData, pcaMeans, pcaDim, colSumRange, covEntry,
    jsMapIdx, jsMapIdxGo, List.range_succ]

theorem pcaEigenvalues_demo :
    pcaEigenvalues demoSqrt demoStream 0 [[0], [1]] = [1/2] := by
  have hd : pcaDim [[0], [1]] = 1 := rfl
  rw [pcaEigenvalues, pcaEigenPhase, hd, pcaCov_demo, eigenHalf]

/-- Witness for C5 at a concrete input. -/
theorem C5_variance_ratios_sum_w :
    ((performPCA demoSqrt demoStream 0 [[0], [1]] (some 1)).1).explainedVariance.sum ≤ 1 ∧
      (some 1 = some (pcaDim [[0], [1]]) →
        ((performPCA demoSqrt demoStream 0 [[0], [1]] (some 1)).1).explainedVariance.sum = 1) :=
  C5_variance_ratios_sum demoSqrt demoStream 0 [[0], [1]] (some 1)
    (by rw [pcaEigenvalues_demo]; norm_num)
    (by rw [pcaEigenvalues_demo]; intro x hx; rw [List.mem_singleton] at hx;
        rw [hx]; norm_num)

theorem silhouetteA_nonneg (sq : ℚ → ℚ) (hnn : ∀ q, 0 ≤ q → 0 ≤ sq q)
    (data : Mat) (labels : List ℕ) (i : ℕ) :
    0 ≤ silhouetteA sq data labels i := by
  simp only [silhouetteA]
  split
  · apply div_nonneg
    · apply sum_nonneg_list
      intro x hx
      obtain ⟨j, _, rfl⟩ := List.mem_map.mp hx
      exact euclideanDistance_nonneg sq hnn _ _
    · exact Nat.cast_nonneg _
  · exact le_refl 0

theorem silhouetteB_nonneg (sq : ℚ → ℚ) (hnn : ∀ q, 0 ≤ q → 0 ≤ sq q)
    (data : Mat) (labels : List ℕ) (i : ℕ) :
    0 ≤ silhouetteB sq data labels i := by
  simp only [silhouetteB]
  have hmem : ∀ x ∈ (labels.dedup.filter (fun cl => cl ≠ labels.getD i 0)).filterMap
      (fun cl =>
        let ds := ((List.range data.length).filter
            (fun j => labels.getD j 0 = cl)).map
          (fun j => euclideanDistance sq (data.getD i []) (data.getD j []))
        if 0 < ds.length then some (ds.sum / (ds.length : ℚ)) else none),
      0 ≤ x := by
    intro x hx
    obtain ⟨cl, _, hsome⟩ := List.mem_filterMap.mp hx
    simp only at hsome
    split at hsome
    · cases hsome
      apply div_nonneg
      · apply sum_nonneg_list
        intro y hy
        obtain ⟨j, _, rfl⟩ := List.mem_map.mp hy
        exact euclideanDistance_nonneg sq hnn _ _
      · exact Nat.cast_nonneg _
    · cases hsome
  split
  · exact le_refl 0
  · rename_i a rest heq
    exact le_foldl_min rest a 0 (hmem a (heq ▸ List.mem_cons_self a rest))
      (fun x hx => hmem x (heq ▸ List.mem_cons_of_mem a hx))

theorem silhouetteCoef_bounds (sq : ℚ → ℚ) (hnn : ∀ q, 0 ≤ q → 0 ≤ sq q)
    (data : Mat) (labels : List ℕ) (i : ℕ) :
    -1 ≤ silhouetteCoef sq data labels i ∧ silhouetteCoef sq data labels i ≤ 1 := by
  have ha := silhouetteA_nonneg sq hnn data labels i
  have hb := silhouetteB_nonneg sq hnn data labels i
  simp only [silhouetteCoef]
  split
  · norm_num
  · split
    · norm_num
    · split
      · norm_num
      · rename_i hab ha0 hb0
        have hapos : 0 < silhouetteA sq data labels i :=
          lt_of_le_of_ne ha (Ne.symm ha0)
        have hbpos : 0 < silhouetteB sq data labels i :=
          lt_of_le_of_ne hb (Ne.symm hb0)
        have hmax : 0 < max (silhouetteA sq data labels i)
            (silhouetteB sq data labels i) := lt_max_of_lt_left hapos
        constructor
        · rw [le_div_iff hmax]
          have h1 := le_max_left (silhouetteA sq data labels i)
            (silhouetteB sq data labels i)
          linarith
        · rw [div_le_one hmax]
          have h2 := le_max_right (silhouetteA sq data labels i)
            (silhouetteB sq data labels i)
          linarith

/-- Claim C6: for every matrix with at least 2 rows and every label sequence
with at least 2 distinct labels, `calculateSilhouetteScore` returns a value
in `[-1, 1]` (the mean of the per-point coefficients, each special-cased per
the source to `0`, `1`, `-1` when `a` or `b` vanish); for fewer than 2 rows
or fewer than 2 distinct labels it returns exactly `0`.  The hypothesis on
`sq` (nonnegative on nonnegative arguments) holds for the real square
root. -/
theorem C6_silhouette_bounds (sq : ℚ → ℚ) (data : Mat) (labels : List ℕ)
    (hnn : ∀ q, 0 ≤ q → 0 ≤ sq q) :
    (2 ≤ data.length → 2 ≤ labels.dedup.length →
      -1 ≤ calculateSilhouetteScore sq data labels ∧
        calculateSilhouetteScore sq data labels ≤ 1) ∧
      (data.length < 2 ∨ labels.dedup.length < 2 →
        calculateSilhouetteScore sq data labels = 0) := by
  constructor
  · intro h2n h2l
    have hguard : ¬ (data.length < 2 ∨ labels.dedup.length < 2) := by
      rintro (h | h) <;> omega
    simp only [calculateSilhouetteScore, if_neg hguard]
    have hnq : (0 : ℚ) < (data.length : ℚ) := by
      have : 0 < data.length := by omega
      exact_mod_cast this
    have hup : ((List.range data.length).map (silhouetteCoef sq data labels)).sum
        ≤ (data.length : ℚ) := by
      rw [sum_list_range]
      calc ∑ i ∈ Finset.range data.length, silhouetteCoef sq data labels i
          ≤ ∑ _i ∈ Finset.range data.length, (1 : ℚ) :=
            Finset.sum_le_sum (fun i _ => (silhouetteCoef_bounds sq hnn data labels i).2)
        _ = (data.length : ℚ) := by simp
    have hlo : -(data.length : ℚ) ≤
        ((List.range data.length).map (silhouetteCoef sq data labels)).sum := by
      rw [sum_list_range]
      calc -(data.length : ℚ) = ∑ _i ∈ Finset.range data.length, (-1 : ℚ) := by simp
        _ ≤ ∑ i ∈ Finset.range data.length, silhouetteCoef sq data labels i :=
            Finset.sum_le_sum (fun i _ => (silhouetteCoef_bounds sq hnn data labels i).1)
    constructor
    · rw [le_div_iff hnq]
      linarith
    · rw [div_le_one hnq]
      exact hup
  · intro h
    simp only [calculateSilhouetteScore, if_pos h]

/-- Witness for C6 at a concrete input. -/
theorem C6_silhouette_bounds_w :
    (2 ≤ ([[0], [1]] : Mat).length → 2 ≤ ([0, 1] : List ℕ).dedup.length →
      -1 ≤ calculateSilhouetteScore demoSqrt [[0], [1]] [0, 1] ∧
        calculateSilhouetteScore demoSqrt [[0], [1]] [0, 1] ≤ 1) ∧
      (([[0], [1]] : Mat).length < 2 ∨ ([0, 1] : List ℕ).dedup.length < 2 →
        calculateSilhouetteScore demoSqrt [[0], [1]] [0, 1] = 0) :=
  C6_silhouette_bounds demoSqrt [[0], [1]] [0, 1]
    (fun q hq => by
      unfold demoSqrt
      by_cases h14 : q = 1 / 4
      · rw [if_pos h14]; norm_num
      · rw [if_neg h14]; exact abs_nonneg q)

theorem standardize_cell (sq : ℚ → ℚ) (data : Mat) (hne : data ≠ [])
    (hrect : ∀ r ∈ data, r.length = (data.headD []).length)
    {i j : ℕ} (hi : i < data.length) (hj : j < (data.headD []).length) :
    ((standardizeData sq data).getD i []).getD j 0 =
      ((data.getD i []).getD j 0 - colMeanQ data j) /
        (if sq (colVarQ data j) = 0 then 1 else sq (colVarQ data j)) := by
  have hguard : ¬ (data.length = 0 ∨ (data.headD []).length = 0) := by
    rintro (h0 | h0)
    · exact hne (List.length_eq_zero.mp h0)
    · omega
  simp only [standardizeData, if_neg hguard]
  rw [getD_map _ data hi [] []]
  rw [jsMapIdx_getD _ _ (by rw [hrect _ (getD_mem data hi [])]; exact hj) 0]
  rw [getD_range_map _ hj 0, getD_range_map _ hj 0, getD_range_map _ hj 0]
  rfl

theorem standardize_length (sq : ℚ → ℚ) (data : Mat) (hne : data ≠ [])
    (hd : (data.headD []).length ≠ 0) :
    (standardizeData sq data).length = data.length := by
  have hguard : ¬ (data.length = 0 ∨ (data.headD []).length = 0) := by
    rintro (h0 | h0)
    · exact hne (List.length_eq_zero.mp h0)
    · exact hd h0
  simp only [standardizeData, if_neg hguard, List.length_map]

theorem colVarQ_nonneg (data : Mat) (j : ℕ) : 0 ≤ colVarQ data j := by
  unfold colVarQ
  apply div_nonneg _ (Nat.cast_nonneg _)
  rw [sum_list_range]
  exact Finset.sum_nonneg (fun i _ => sq_nonneg _)

theorem colVarQ_eq_zero_cells (data : Mat) (hne : data ≠ []) (j : ℕ)
    (hv : colVarQ data j = 0) :
    ∀ i < data.length, (data.getD i []).getD j 0 = colMeanQ data j := by
  have hn : 0 < data.length := List.length_pos.mpr hne
  have hnq : ((data.length : ℚ)) ≠ 0 := by
    exact_mod_cast Nat.pos_iff_ne_zero.mp hn
  unfold colVarQ at hv
  rw [div_eq_zero_iff] at hv
  rcases hv with hv | hv
  · rw [sum_list_range] at hv
    intro i hi
    have := (Finset.sum_eq_zero_iff_of_nonneg (fun i _ => sq_nonneg _)).mp hv i
      (Finset.mem_range.mpr hi)
    have h2 := pow_eq_zero_iff (n := 2) (by norm_num) |>.mp this
    linarith [sub_eq_zero.mp h2]
  · exact absurd hv hnq

theorem colVarQ_zero_of_cells (data : Mat) (hne : data ≠ []) (j : ℕ)
    (hc : ∀ i < data.length, (data.getD i []).getD j 0 = (data.getD 0 []).getD j 0) :
    colVarQ data j = 0 := by
  have hn : 0 < data.length := List.length_pos.mpr hne
  have hnq : ((data.length : ℚ)) ≠ 0 := by
    exact_mod_cast Nat.pos_iff_ne_zero.mp hn
  have hmean : colMeanQ data j = (data.getD 0 []).getD j 0 := by
    unfold colMeanQ
    rw [sum_list_range]
    rw [Finset.sum_congr rfl (fun i hi => hc i (Finset.mem_range.mp hi))]
    rw [Finset.sum_const, Finset.card_range, nsmul_eq_mul]
    field_simp
  unfold colVarQ
  rw [sum_list_range]
  rw [Finset.sum_eq_zero, zero_div]
  intro i hi
  rw [hmean, hc i (Finset.mem_range.mp hi)]
  ring

/-- Claim C7: for every nonempty rectangular matrix, every column of the
`standardizeData` output has population mean exactly 0 and population
variance exactly 1 (hence standard deviation 1; the claim's 1e-9 tolerance is
met exactly in exact arithmetic), computed with the population denominator
(the row count), except columns that were constant in the input (equivalently
columns of population variance 0), whose scale is forced to 1 and which
become all zeros in the output.  The hypotheses on `sq` — `sq 0 = 0` and
`(sq v) ^ 2 = v` at each positive column variance `v` — hold for the real
square root. -/
theorem C7_standardize_columns (sq : ℚ → ℚ) (data : Mat) (hne : data ≠ [])
    (hrect : ∀ r ∈ data, r.length = (data.headD []).length)
    (hz : sq 0 = 0)
    (hs : ∀ j < (data.headD []).length, 0 < colVarQ data j →
      (sq (colVarQ data j)) ^ 2 = colVarQ data j) :
    ∀ j < (data.headD []).length,
      (colVarQ data j = 0 ↔ ∀ i < data.length,
        (data.getD i []).getD j 0 = (data.getD 0 []).getD j 0) ∧
      (colVarQ data j = 0 →
        ∀ i < data.length, ((standardizeData sq data).getD i []).getD j 0 = 0) ∧
      (colVarQ data j ≠ 0 →
        colMeanQ (standardizeData sq data) j = 0 ∧
        colVarQ (standardizeData sq data) j = 1) := by
  intro j hj
  have hn : 0 < data.length := List.length_pos.mpr hne
  have hnq : ((data.length : ℚ)) ≠ 0 := by
    exact_mod_cast Nat.pos_iff_ne_zero.mp hn
  refine ⟨⟨fun hv i hi => ?_, fun hc => colVarQ_zero_of_cells data hne j hc⟩,
    fun hv i hi => ?_, fun hv => ?_⟩
  · rw [colVarQ_eq_zero_cells data hne j hv i hi,
      colVarQ_eq_zero_cells data hne j hv 0 hn]
  · rw [standardize_cell sq data hne hrect hi hj, hv, hz]
    rw [if_pos rfl, div_one, colVarQ_eq_zero_cells data hne j hv i hi, sub_self]
  · have hvpos : 0 < colVarQ data j :=
      lt_of_le_of_ne (colVarQ_nonneg data j) (Ne.symm hv)
    have hsq2 : (sq (colVarQ data j)) ^ 2 = colVarQ data j := hs j hj hvpos
    have hsq0 : sq (colVarQ data j) ≠ 0 := by
      intro h0
      rw [h0] at hsq2
      rw [← hsq2] at hv
      exact hv (by norm_num)
    have hlen : (standardizeData sq data).length = data.length :=
      standardize_length sq data hne (by omega)
    have hcell : ∀ i < data.length,
        ((standardizeData sq data).getD i []).getD j 0 =
          ((data.getD i []).getD j 0 - colMeanQ data j) / sq (colVarQ data j) := by
      intro i hi
      rw [standardize_cell sq data hne hrect hi hj, if_neg hsq0]
    have hmean_def : colMeanQ data j =
        (∑ i ∈ Finset.range data.length, (data.getD i []).getD j 0) /
          (data.length : ℚ) := by
      unfold colMeanQ
      rw [sum_list_range]
    have hvar_def : colVarQ data j =
        (∑ i ∈ Finset.range data.length,
          ((data.getD i []).getD j 0 - colMeanQ data j) ^ 2) /
          (data.length : ℚ) := by
      unfold colVarQ
      rw [sum_list_range]
    have hsub0 : ∑ i ∈ Finset.range data.length,
        ((data.getD i []).getD j 0 - colMeanQ data j) = 0 := by
      rw [Finset.sum_sub_distrib, Finset.sum_const, Finset.card_range,
        nsmul_eq_mul, hmean_def]
      field_simp
    have hmean0 : colMeanQ (standardizeData sq data) j = 0 := by
      unfold colMeanQ
      rw [hlen, sum_list_range]
      rw [Finset.sum_congr rfl (fun i hi => hcell i (Finset.mem_range.mp hi))]
      rw [← Finset.sum_div, hsub0, zero_div, zero_div]
    refine ⟨hmean0, ?_⟩
    unfold colVarQ
    rw [hlen, hmean0, sum_list_range]
    rw [Finset.sum_congr rfl (fun i hi => by
      rw [hcell i (Finset.mem_range.mp hi), sub_zero, div_pow])]
    rw [← Finset.sum_div]
    have hsumsq : ∑ i ∈ Finset.range data.length,
        ((data.getD i []).getD j 0 - colMeanQ data j) ^ 2 =
          colVarQ data j * (data.length : ℚ) := by
      rw [hvar_def]
      field_simp
    rw [hsumsq, hsq2]
    field_simp

/-- Witness for C7 at a concrete input (column 1 is constant). -/
theorem C7_standardize_columns_w :
    (colVarQ [[0, 5], [2, 5]] 1 = 0 ↔ ∀ i < ([[0, 5], [2, 5]] : Mat).length,
      (([[0, 5], [2, 5]] : Mat).getD i []).getD 1 0 =
        (([[0, 5], [2, 5]] : Mat).getD 0 []).getD 1 0) ∧
    (colVarQ [[0, 5], [2, 5]] 1 = 0 → ∀ i < ([[0, 5], [2, 5]] : Mat).length,
      ((standardizeData demoSqrt [[0, 5], [2, 5]]).getD i []).getD 1 0 = 0) ∧
    (colVarQ [[0, 5], [2, 5]] 1 ≠ 0 →
      colMeanQ (standardizeData demoSqrt [[0, 5], [2, 5]]) 1 = 0 ∧
      colVarQ (standardizeData demoSqrt [[0, 5], [2, 5]]) 1 = 1) :=
  C7_standardize_columns demoSqrt [[0, 5], [2, 5]] (by simp)
    (by decide)
    (by norm_num [demoSqrt])
    (by
      intro j hj hpos
      have hj2 : j < 2 := by simpa using hj
      clear hj
      interval_cases j
      · have h0 : colVarQ [[0, 5], [2, 5]] 0 = 1 := by
          norm_num [colVarQ, colMeanQ, List.range_succ]
        rw [h0]
        norm_num [demoSqrt]
      · have h1 : colVarQ [[0, 5], [2, 5]] 1 = 0 := by
          norm_num [colVarQ, colMeanQ, List.range_succ]
        rw [h1] at hpos
        norm_num at hpos)
    1 (by norm_num)

theorem getD_set_self (l : List α) {i : ℕ} (h : i < l.length) (a dA : α) :
    (l.set i a).getD i dA = a := by
  rw [List.getD_eq_getElem?_getD, List.getElem?_set_self h]
  rfl

theorem getD_set_ne (l : List α) {i j : ℕ} (h : i ≠ j) (a dA : α) :
    (l.set i a).getD j dA = l.getD j dA := by
  rw [List.getD_eq_getElem?_getD, List.getElem?_set_ne h, ← List.getD_eq_getElem?_getD]

theorem getD_replicate {n i : ℕ} (h : i < n) (a dA : α) :
    (List.replicate n a).getD i dA = a := by
  rw [List.getD_eq_getElem?_getD, List.getElem?_replicate, if_pos h]
  rfl

/-- Invariant of the centroid-accumulation fold: the count cell `j` grows by
the number of rows labelled `j`, and each coordinate cell `j, col` grows by
the sum of those rows' `col` entries. -/
theorem accum_spec (k d : ℕ) (j : ℕ) (hj : j < k) :
    ∀ (L : List (Vec × ℕ)) (grid : Mat) (counts : List ℕ),
      grid.length = k → counts.length = k →
      (∀ p ∈ L, p.2 < k) →
      ((L.foldl (fun st p => accumRow st.1 st.2 p.1 p.2 d) (grid, counts)).2.getD j 0 =
        counts.getD j 0 + (L.map Prod.snd).count j) ∧
      (∀ col < d,
        ((L.foldl (fun st p => accumRow st.1 st.2 p.1 p.2 d) (grid, counts)).1.getD j []).getD col 0 =
          (grid.getD j []).getD col 0 +
            ((L.filter (fun p => p.2 = j)).map (fun p => p.1.getD col 0)).sum) := by
  intro L
  induction L with
  | nil =>
    intro grid counts _ _ _
    constructor
    · simp
    · intro col _; simp
  | cons p t ih =>
    intro grid counts hg hc hmem
    have hp2 : p.2 < k := hmem p (List.mem_cons_self p t)
    have hstep : ∀ st : Mat × List ℕ,
        (p :: t).foldl (fun st q => accumRow st.1 st.2 q.1 q.2 d) st =
          t.foldl (fun st q => accumRow st.1 st.2 q.1 q.2 d)
            (accumRow st.1 st.2 p.1 p.2 d) := fun st => rfl
    obtain ⟨ihc, ihg⟩ := ih
      (grid.set p.2 ((List.range d).map
        (fun c => ((grid.getD p.2 []).getD c 0 + p.1.getD c 0))))
      (counts.set p.2 (counts.getD p.2 0 + 1))
      (by rw [List.length_set]; exact hg)
      (by rw [List.length_set]; exact hc)
      (fun q hq => hmem q (List.mem_cons_of_mem p hq))
    constructor
    · rw [hstep, accumRow]
      rw [ihc]
      by_cases hpj : p.2 = j
      · subst hpj
        rw [getD_set_self counts (by omega) _ 0]
        simp only [List.map_cons, List.count_cons]
        simp
        omega
      · rw [getD_set_ne counts hpj _ 0]
        simp only [List.map_cons, List.count_cons]
        have : ¬ (p.2 == j) := by simpa using hpj
        simp [this]
    · intro col hcol
      rw [hstep, accumRow]
      rw [ihg col hcol]
      by_cases hpj : p.2 = j
      · subst hpj
        rw [getD_set_self grid (by omega) _ []]
        rw [getD_range_map _ hcol 0]
        rw [List.filter_cons_of_pos (by simp)]
        simp only [List.map_cons, List.sum_cons]
        ring
      · rw [getD_set_ne grid hpj _ []]
        rw [List.filter_cons_of_neg (by simpa using hpj)]

theorem zip_filter_sum (j col : ℕ) :
    ∀ (data : Mat) (labels : List ℕ), labels.length = data.length →
      (((data.zip labels).filter (fun p => p.2 = j)).map
        (fun p => p.1.getD col 0)).sum =
        ∑ i ∈ Finset.range data.length,
          if labels.getD i 0 = j then (data.getD i []).getD col 0 else 0 := by
  intro data
  induction data with
  | nil => intro labels _; simp
  | cons r dt ih =>
    intro labels h
    cases labels with
    | nil => simp at h
    | cons l lt =>
      have hlen : lt.length = dt.length := by simpa using h
      rw [List.zip_cons_cons, List.length_cons, Finset.sum_range_succ']
      simp only [List.getD_cons_succ, List.getD_cons_zero]
      rw [← ih lt hlen]
      by_cases hl : l = j
      · rw [List.filter_cons_of_pos (by simpa using hl), if_pos hl]
        simp only [List.map_cons, List.sum_cons]
        ring
      · rw [List.filter_cons_of_neg (by simpa using hl), if_neg hl]
        simp

/-- Claim C8: in the update step of `performKMeans`'s Lloyd iteration (the
function `updateCentroids`, which `lloydLoop` applies once per iteration
until termination), each centroid with at least one assigned point becomes
the coordinate-wise mean of its assigned points, and each centroid with zero
assigned points keeps its previous coordinates unchanged (no reseeding). -/
theorem C8_update_centroid_mean (data : Mat) (labels : List ℕ)
    (centroids : Mat) (k d : ℕ) (hlen : labels.length = data.length)
    (hlab : ∀ l ∈ labels, l < k) (j : ℕ) (hj : j < k) :
    (updateCentroids data labels centroids k d).getD j [] =
      if 0 < labels.count j then
        (List.range d).map (fun col =>
          (∑ i ∈ Finset.range data.length,
            if labels.getD i 0 = j then (data.getD i []).getD col 0 else 0) /
            (labels.count j : ℚ))
      else centroids.getD j [] := by
  have hsnd : (data.zip labels).map Prod.snd = labels :=
    List.map_snd_zip data labels (le_of_eq hlen)
  have hpairs : ∀ p ∈ data.zip labels, p.2 < k := by
    intro p hp
    exact hlab p.2 (List.of_mem_zip hp).2
  obtain ⟨hcount, hgrid⟩ := accum_spec k d j hj (data.zip labels)
    (List.replicate k (List.replicate d 0)) (List.replicate k 0)
    (List.length_replicate _ _) (List.length_replicate _ _) hpairs
  rw [hsnd] at hcount
  rw [getD_replicate hj _ 0, zero_add] at hcount
  simp only [updateCentroids, accumAll]
  rw [getD_range_map _ hj []]
  rw [hcount]
  by_cases hpos : 0 < labels.count j
  · rw [if_pos hpos, if_pos hpos]
    apply List.map_congr_left
    intro col hcol
    rw [List.mem_range] at hcol
    rw [hgrid col hcol, getD_replicate hj _ [], getD_replicate hcol _ 0, zero_add]
    rw [zip_filter_sum j col data labels hlen]
  · rw [if_neg hpos, if_neg hpos]

/-- Witness for C8 at a concrete input: three points, labels `[0, 0, 2]`,
`k = 3`; cluster 1 is empty and keeps its old centroid. -/
theorem C8_update_centroid_mean_w :
    (updateCentroids [[0], [2], [5]] [0, 0, 2] [[9], [9], [7]] 3 1).getD 1 [] =
      (if 0 < ([0, 0, 2] : List ℕ).count 1 then
        (List.range 1).map (fun col =>
          (∑ i ∈ Finset.range ([[0], [2], [5]] : Mat).length,
            if ([0, 0, 2] : List ℕ).getD i 0 = 1 then
              (([[0], [2], [5]] : Mat).getD i []).getD col 0 else 0) /
            (([0, 0, 2] : List ℕ).count 1 : ℚ))
      else ([[9], [9], [7]] : Mat).getD 1 []) :=
  C8_update_centroid_mean [[0], [2], [5]] [0, 0, 2] [[9], [9], [7]] 3 1
    (by decide) (by decide) 1 (by decide)

theorem readVal_nil (key : String) : readVal [] key = .vundef := rfl

theorem readVal_cons (p : String × JsVal) (t : JsRec) (key : String) :
    readVal (p :: t) key = if p.1 = key then p.2 else readVal t key := rfl

theorem writeVal_nil (key : String) (v : JsVal) :
    writeVal [] key v = [(key, v)] := rfl

theorem writeVal_cons (p : String × JsVal) (t : JsRec) (key : String)
    (v : JsVal) : writeVal (p :: t) key v =
      if p.1 = key then (key, v) :: t else p :: writeVal t key v := rfl

theorem readVal_writeVal_self (key : String) (v : JsVal) :
    ∀ r : JsRec, readVal (writeVal r key v) key = v := by
  intro r
  induction r with
  | nil => rw [writeVal_nil, readVal_cons, if_pos rfl]
  | cons p t ih =>
    rw [writeVal_cons]
    by_cases hp : p.1 = key
    · rw [if_pos hp, readVal_cons, if_pos rfl]
    · rw [if_neg hp, readVal_cons, if_neg hp, ih]

theorem readVal_writeVal_ne (key key' : String) (v : JsVal) (hne : key' ≠ key) :
    ∀ r : JsRec, readVal (writeVal r key v) key' = readVal r key' := by
  intro r
  induction r with
  | nil =>
    rw [writeVal_nil, readVal_cons, if_neg (fun h => hne h.symm)]
  | cons p t ih =>
    rw [writeVal_cons]
    by_cases hp : p.1 = key
    · rw [if_pos hp, readVal_cons, if_neg (fun h => hne h.symm), readVal_cons,
        if_neg (fun h => hne (hp ▸ h).symm)]
    · rw [if_neg hp, readVal_cons, readVal_cons, ih]

theorem lookupD_map_self (w : String → α) (dflt : α) (f : String) :
    ∀ fs : List String, f ∈ fs →
      lookupD (fs.map (fun g => (g, w g))) f dflt = w f := by
  intro fs
  induction fs with
  | nil => intro h; cases h
  | cons g t ih =>
    intro h
    by_cases hg : g = f
    · simp [lookupD, hg]
    · rcases List.mem_cons.mp h with rfl | ht
      · exact absurd rfl hg
      · simp only [List.map_cons, lookupD, if_neg hg]
        exact ih ht

/-- A fold whose step touches only the feature it is visiting leaves the
value of any feature outside the visited list unchanged. -/
theorem foldl_readVal_preserve (f : String) (step : JsRec → String → JsRec)
    (hstep : ∀ acc g, g ≠ f → readVal (step acc g) f = readVal acc f) :
    ∀ (fs : List String) (r : JsRec), f ∉ fs →
      readVal (fs.foldl step r) f = readVal r f := by
  intro fs
  induction fs with
  | nil => intro r _; rfl
  | cons g t ih =>
    intro r hnf
    rw [List.foldl_cons, ih (step r g) (fun h => hnf (List.mem_cons_of_mem g h)),
      hstep r g (fun h => hnf (h ▸ List.mem_cons_self g t))]

/-- The categorical-imputation fold writes the looked-up mode into a missing
cell of a visited feature and never touches it again. -/
theorem foldl_cat_sets (f : String) (w : String → String) :
    ∀ (fs : List String) (r : JsRec), fs.Nodup → f ∈ fs →
      (readVal r f = .vnull ∨ readVal r f = .vundef ∨ readVal r f = .vstr "") →
      readVal (fs.foldl (fun acc g =>
        if readVal acc g = .vnull ∨ readVal acc g = .vundef ∨
            readVal acc g = .vstr "" then
          writeVal acc g (.vstr (w g))
        else acc) r) f = .vstr (w f) := by
  intro fs
  induction fs with
  | nil => intro r _ h; cases h
  | cons g t ih =>
    intro r hnd hf hmiss
    rcases List.mem_cons.mp hf with rfl | hft
    · have hnotin : f ∉ t := (List.nodup_cons.mp hnd).1
      rw [List.foldl_cons, if_pos hmiss]
      rw [foldl_readVal_preserve f _ (fun acc g hg => by
          split
          · exact readVal_writeVal_ne g f _ (Ne.symm hg) acc
          · rfl) t _ hnotin]
      exact readVal_writeVal_self f _ r
    · have hgf : g ≠ f := by
        intro h
        exact (List.nodup_cons.mp hnd).1 (h ▸ hft)
      have hpres : readVal (if readVal r g = .vnull ∨ readVal r g = .vundef ∨
          readVal r g = .vstr "" then writeVal r g (.vstr (w g)) else r) f =
            readVal r f := by
        split
        · exact readVal_writeVal_ne g f _ (Ne.symm hgf) r
        · rfl
      rw [List.foldl_cons]
      exact ih _ (List.nodup_cons.mp hnd).2 hft (by rw [hpres]; exact hmiss)

theorem keys_nodup_val_eq :
    ∀ (r : JsRec), (r.map Prod.fst).Nodup →
      ∀ {f : String} {v w : JsVal}, (f, v) ∈ r → (f, w) ∈ r → v = w := by
  intro r
  induction r with
  | nil => intro _ f v w hv; cases hv
  | cons p t ih =>
    intro hnd f v w hv hw
    rw [List.map_cons, List.nodup_cons] at hnd
    obtain ⟨hp1, hp2⟩ := hnd
    rcases List.mem_cons.mp hv with rfl | hvt
    · rcases List.mem_cons.mp hw with h2 | hwt
      · exact (congrArg Prod.snd h2.symm)
      · exact absurd (List.mem_map.mpr ⟨(f, w), hwt, rfl⟩) hp1
    · rcases List.mem_cons.mp hw with rfl | hwt
      · exact absurd (List.mem_map.mpr ⟨(f, v), hvt, rfl⟩) hp1
      · exact ih hp2 hvt hwt

/-- Claim C9: `imputeMissingValues` classifies each non-excluded column by
inspecting only the first record — a column is numerical exactly when the
first record's value for it is a number — so a column whose first-record
value is `null`, `undefined`, or a string is treated as categorical for the
entire dataset, and missing cells in such a column are replaced by the
column's string mode (a string value) rather than its numeric median. -/
theorem C9_first_record_typing (numToStr : ℚ → String) (data : List JsRec)
    (f : String) (v : JsVal) (hmem : (f, v) ∈ data.headD [])
    (hkeys : ((data.headD []).map Prod.fst).Nodup)
    (hexc : f ∉ excludeFeatures) :
    (f ∈ (identifyFeatureTypes data).1 ↔ v.isNum = true) ∧
    (v.isNum = false →
      f ∈ (identifyFeatureTypes data).2 ∧
      ∀ i < data.length,
        (readVal (data.getD i []) f = .vnull ∨
          readVal (data.getD i []) f = .vundef ∨
          readVal (data.getD i []) f = .vstr "") →
        readVal ((imputeMissingValues numToStr data).getD i []) f =
          .vstr (modeOf numToStr data f)) := by
  cases data with
  | nil => cases hmem
  | cons sample rest =>
    simp only [List.headD_cons] at hmem hkeys
    have hiff : f ∈ (identifyFeatureTypes (sample :: rest)).1 ↔ v.isNum = true := by
      constructor
      · intro hf
        simp only [identifyFeatureTypes, List.mem_map, List.mem_filter] at hf
        obtain ⟨p, ⟨⟨hp1, _⟩, hp3⟩, hp4⟩ := hf
        have : p.2 = v := keys_nodup_val_eq sample hkeys
          (by rw [← hp4]; exact hp1) hmem
        rw [← this]
        exact hp3
      · intro hv
        simp only [identifyFeatureTypes, List.mem_map, List.mem_filter]
        exact ⟨(f, v), ⟨⟨hmem, by simp [hexc]⟩, hv⟩, rfl⟩
    refine ⟨hiff, fun hnv => ?_⟩
    have hcat : f ∈ (identifyFeatureTypes (sample :: rest)).2 := by
      simp only [identifyFeatureTypes, List.mem_map, List.mem_filter]
      exact ⟨(f, v), ⟨⟨hmem, by simp [hexc]⟩, by simp [hnv]⟩, rfl⟩
    have hnotnum : f ∉ (identifyFeatureTypes (sample :: rest)).1 := by
      intro hf
      rw [hiff] at hf
      rw [hf] at hnv
      cases hnv
    have hcatnd : (identifyFeatureTypes (sample :: rest)).2.Nodup := by
      simp only [identifyFeatureTypes]
      have hsub : List.Sublist
          ((sample.filter (fun p => ¬ excludeFeatures.contains p.1)).filter
            (fun p => ¬ p.2.isNum)) sample :=
        (List.filter_sublist _).trans (List.filter_sublist _)
      exact hkeys.sublist (hsub.map Prod.fst)
    refine ⟨hcat, fun i hi hmiss => ?_⟩
    rw [imputeMissingValues]
    rw [getD_map _ _ hi [] []]
    rw [foldl_cat_sets f _ _ _ hcatnd hcat (by
      rw [foldl_readVal_preserve f _ (fun acc g hg => by
          split
          · exact readVal_writeVal_ne g f _ (Ne.symm hg) acc
          · rfl) _ _ hnotnum]
      exact hmiss)]
    rw [lookupD_map_self _ _ _ _ hcat]

/-- A two-record demo dataset whose `Age` column has a `null` in the first
record (so it is classified categorical) and a number in the second. -/
def demoRecords : List JsRec :=
  [[("Age", JsVal.vnull), ("Sex", JsVal.vstr "m")],
   [("Age", JsVal.vnum 7), ("Sex", JsVal.vstr "m")]]

def demoNumToStr (_ : ℚ) : String := "seven"

/-- Witness for C9 at a concrete input. -/
theorem C9_first_record_typing_w :
    ("Age" ∈ (identifyFeatureTypes demoRecords).1 ↔ JsVal.vnull.isNum = true) ∧
    (JsVal.vnull.isNum = false →
      "Age" ∈ (identifyFeatureTypes demoRecords).2 ∧
      ∀ i < demoRecords.length,
        (readVal (demoRecords.getD i []) "Age" = .vnull ∨
          readVal (demoRecords.getD i []) "Age" = .vundef ∨
          readVal (demoRecords.getD i []) "Age" = .vstr "") →
        readVal ((imputeMissingValues demoNumToStr demoRecords).getD i []) "Age" =
          .vstr (modeOf demoNumToStr demoRecords "Age")) :=
  C9_first_record_typing demoNumToStr demoRecords "Age" JsVal.vnull
    (by decide) (by decide) (by decide)

end TitanicCluster
